import Mathlib

/-!
Verification of the metric-computation engine of `lib/Evaluator.py`
(Object-Detection-Metrics).

The Python source is shallowly embedded:

* boxes are quadruples of rationals in the `XYX2Y2` corner format, as the
  engine consumes them from `getAbsoluteBoundingBox(BBFormat.XYX2Y2)`;
* image identifiers and class labels are modelled as naturals (the engine
  treats both as opaque keys; no claim depends on string ordering of class
  labels);
* IEEE floats are modelled as exact rationals; a value that is not a finite
  number (numpy's `nan` from `0/0`, or `inf`) is modelled as `none` in the
  type `QN := Option ℚ`, and the Python/numpy comparison, `max` and
  arithmetic semantics on such values (every comparison with `nan` is false,
  `x != nan` is true, arithmetic propagates `nan`) are reproduced by the
  `qn*`/`py*` operations below;
* Python dictionaries are insertion-ordered association lists
  (`List (ℕ × _)`);
* Python exceptions (`KeyError`, `ZeroDivisionError`, `NameError` from the
  unassigned `jmax`, failed `assert`) are modelled with `Except PyError`.
-/

attribute [local semireducible] Rat.add Rat.sub Rat.mul Rat.inv

set_option maxRecDepth 8000

namespace Evaluator

/-- A rational or a non-finite float value (`nan`/`inf`), `none` meaning
non-finite.  The engine only ever produces `nan` (from `0/0`), never `inf`,
because the only zero denominator it can build is `npos = 0` with a zero
numerator. -/
abbrev QN := Option ℚ

/-- Addition with `nan` propagation (IEEE: `nan + x = nan`). -/
def qnAdd : QN → QN → QN
  | some x, some y => some (x + y)
  | _, _ => none

/-- Subtraction with `nan` propagation. -/
def qnSub : QN → QN → QN
  | some x, some y => some (x - y)
  | _, _ => none

/-- Multiplication with `nan` propagation (IEEE: `nan * 0 = nan`). -/
def qnMul : QN → QN → QN
  | some x, some y => some (x * y)
  | _, _ => none

/-- Division: a zero denominator yields a non-finite result (numpy emits
`nan`/`inf` and a warning instead of raising); `nan` propagates. -/
def qnDiv : QN → QN → QN
  | some x, some y => if y = 0 then none else some (x / y)
  | _, _ => none

/-- Python `max(a, b)`: returns `b` if `b > a` else `a`; every comparison
with `nan` is false, so `max(x, nan) = x` and `max(nan, x) = nan`. -/
def pymax : QN → QN → QN
  | some x, some y => if x < y then some y else some x
  | some x, none => some x
  | none, _ => none

/-- Python `a != b`: true whenever either side is `nan` (IEEE), otherwise
rational disequality. -/
def pyne : QN → QN → Bool
  | some x, some y => decide (x ≠ y)
  | _, _ => true

/-- Python `a >= r` for a possibly-`nan` left operand and a finite right
operand: false when `a` is `nan`. -/
def pygeR (a : QN) (r : ℚ) : Bool :=
  match a with
  | some x => decide (r ≤ x)
  | none => false

deriving instance DecidableEq for Except

/-- Python exceptions reachable in the embedded code. -/
inductive PyError where
  | keyError
  | zeroDivision
  | nameError
  | assertionFailed
deriving DecidableEq, Repr

/-- A bounding box in absolute corner coordinates, the `XYX2Y2` format the
engine extracts from every `BoundingBox`. -/
structure Box where
  x1 : ℚ
  y1 : ℚ
  x2 : ℚ
  y2 : ℚ
deriving DecidableEq, Repr, Inhabited

/-- A geometrically valid box (spec §3: `x1 ≤ x2`, `y1 ≤ y2`). -/
def Box.valid (b : Box) : Prop := b.x1 ≤ b.x2 ∧ b.y1 ≤ b.y2

instance : DecidablePred Box.valid := fun _ => instDecidableAnd

/-- The `BBType` enumeration of the excluded box-management collaborator. -/
inductive BBType where
  | groundTruth
  | detected
deriving DecidableEq, Repr

/-- One element of the input `BoundingBoxes` collection, reduced to the five
observations the engine makes on it: image name, class id, confidence,
kind, and absolute `XYX2Y2` box. -/
structure BB where
  imageName : ℕ
  classId : ℕ
  confidence : ℚ
  bbType : BBType
  box : Box
deriving DecidableEq, Repr

/-- A ground-truth record `[imageName, classId, 1, box]` (the constant
confidence 1 is dropped since nothing reads it). -/
structure GT where
  imageName : ℕ
  classId : ℕ
  box : Box
deriving DecidableEq, Repr, Inhabited

/-- A detection record `[imageName, classId, confidence, box]`. -/
structure Det where
  imageName : ℕ
  classId : ℕ
  conf : ℚ
  box : Box
deriving DecidableEq, Repr, Inhabited

/-! ### Geometry (`Evaluator._boxesIntersect`, `_getIntersectionArea`,
`_getArea`, `_getUnionAreas`, `iou`) -/

/-- Source `_boxesIntersect`: false iff one box is strictly beside or
beyond the other on some axis. -/
def boxesIntersect (boxA boxB : Box) : Bool :=
  if boxA.x1 > boxB.x2 then false
  else if boxB.x1 > boxA.x2 then false
  else if boxA.y2 < boxB.y1 then false
  else if boxA.y1 > boxB.y2 then false
  else true

/-- Source `_getIntersectionArea`, with the inclusive pixel-edge `+1`
convention. -/
def getIntersectionArea (boxA boxB : Box) : ℚ :=
  (min boxA.x2 boxB.x2 - max boxA.x1 boxB.x1 + 1) *
    (min boxA.y2 boxB.y2 - max boxA.y1 boxB.y1 + 1)

/-- Source `_getArea`. -/
def getArea (box : Box) : ℚ := (box.x2 - box.x1 + 1) * (box.y2 - box.y1 + 1)

/-- Source `_getUnionAreas` (always called with `interArea` supplied). -/
def getUnionAreas (boxA boxB : Box) (interArea : ℚ) : ℚ :=
  getArea boxA + getArea boxB - interArea

/-- Source `Evaluator.iou`.  The Python `assert iou >= 0` is the subject of
theorem `iou_spec_in_unit_interval`; division by zero cannot occur under
valid boxes (the union area is positive), and `ℚ` division-by-zero
(returning 0) is never exercised there. -/
def iou (boxA boxB : Box) : ℚ :=
  if boxesIntersect boxA boxB = false then 0
  else
    getIntersectionArea boxA boxB /
      getUnionAreas boxA boxB (getIntersectionArea boxA boxB)

theorem boxesIntersect_iff (a b : Box) :
    boxesIntersect a b = true ↔
      a.x1 ≤ b.x2 ∧ b.x1 ≤ a.x2 ∧ b.y1 ≤ a.y2 ∧ a.y1 ≤ b.y2 := by
  unfold boxesIntersect
  split_ifs with h1 h2 h3 h4 <;> simp
  · intro p1; linarith
  · intro p1 p2; linarith
  · intro p1 p2 p3; linarith
  · intro p1 p2 p3; linarith
  · push_neg at h1 h2 h3 h4
    exact ⟨h1, h2, h3, h4⟩

theorem interArea_pos_of_intersect {a b : Box} (ha : a.valid) (hb : b.valid)
    (h : boxesIntersect a b = true) : 1 ≤ getIntersectionArea a b := by
  rcases (boxesIntersect_iff a b).1 h with ⟨h1, h2, h3, h4⟩
  unfold getIntersectionArea
  have hx : max a.x1 b.x1 ≤ min a.x2 b.x2 :=
    le_min (max_le ha.1 h2) (max_le h1 hb.1)
  have hy : max a.y1 b.y1 ≤ min a.y2 b.y2 :=
    le_min (max_le ha.2 h3) (max_le h4 hb.2)
  have hx1 : (1 : ℚ) ≤ min a.x2 b.x2 - max a.x1 b.x1 + 1 := by linarith
  have hy1 : (1 : ℚ) ≤ min a.y2 b.y2 - max a.y1 b.y1 + 1 := by linarith
  nlinarith

theorem interArea_le_areas {a b : Box} (ha : a.valid) (hb : b.valid)
    (h : boxesIntersect a b = true) :
    getIntersectionArea a b ≤ getArea a ∧ getIntersectionArea a b ≤ getArea b := by
  rcases (boxesIntersect_iff a b).1 h with ⟨h1, h2, h3, h4⟩
  rcases ha with ⟨hax, hay⟩; rcases hb with ⟨hbx, hby⟩
  unfold getIntersectionArea getArea
  have hxw : (0 : ℚ) ≤ min a.x2 b.x2 - max a.x1 b.x1 :=
    sub_nonneg.2 (le_min (max_le hax h2) (max_le h1 hbx))
  have hyw : (0 : ℚ) ≤ min a.y2 b.y2 - max a.y1 b.y1 :=
    sub_nonneg.2 (le_min (max_le hay h3) (max_le h4 hby))
  constructor
  · have hxa : min a.x2 b.x2 - max a.x1 b.x1 ≤ a.x2 - a.x1 := by
      have := min_le_left a.x2 b.x2
      have := le_max_left a.x1 b.x1
      linarith
    have hya : min a.y2 b.y2 - max a.y1 b.y1 ≤ a.y2 - a.y1 := by
      have := min_le_left a.y2 b.y2
      have := le_max_left a.y1 b.y1
      linarith
    nlinarith
  · have hxb : min a.x2 b.x2 - max a.x1 b.x1 ≤ b.x2 - b.x1 := by
      have := min_le_right a.x2 b.x2
      have := le_max_right a.x1 b.x1
      linarith
    have hyb : min a.y2 b.y2 - max a.y1 b.y1 ≤ b.y2 - b.y1 := by
      have := min_le_right a.y2 b.y2
      have := le_max_right a.y1 b.y1
      linarith
    nlinarith

/-- C9.  For valid boxes, `iou` returns 0 on non-intersecting boxes and
`interArea / (areaA + areaB - interArea)` otherwise, and the result always
lies in `[0, 1]`; in particular the Python `assert iou >= 0` can never
fire under this precondition. -/
theorem iou_spec_in_unit_interval (a b : Box) (ha : a.valid) (hb : b.valid) :
    (boxesIntersect a b = false → iou a b = 0) ∧
    (boxesIntersect a b = true →
      iou a b =
        getIntersectionArea a b /
          (getArea a + getArea b - getIntersectionArea a b)) ∧
    0 ≤ iou a b ∧ iou a b ≤ 1 := by
  by_cases h : boxesIntersect a b = true
  · have hI := interArea_pos_of_intersect ha hb h
    have hle := interArea_le_areas ha hb h
    have hU : getIntersectionArea a b ≤ getUnionAreas a b (getIntersectionArea a b) := by
      unfold getUnionAreas; linarith [hle.1, hle.2]
    have hUpos : 0 < getUnionAreas a b (getIntersectionArea a b) := by linarith
    refine ⟨fun hf => by simp [h] at hf, fun _ => by simp [iou, h, getUnionAreas], ?_, ?_⟩
    · unfold iou
      simp only [h]
      positivity
    · unfold iou
      simp only [h]
      rw [if_neg (by simp)]
      exact div_le_one_of_le₀ hU (le_of_lt hUpos)
  · have hf : boxesIntersect a b = false := by
      cases hbe : boxesIntersect a b
      · rfl
      · exact absurd hbe h
    refine ⟨fun _ => by simp [iou, hf], fun ht => absurd ht h, ?_, ?_⟩
    · simp [iou, hf]
    · simp [iou, hf]

/-- Witness for `iou_spec_in_unit_interval` at two concrete overlapping
boxes. -/
theorem iou_spec_in_unit_interval_witness :
    Box.valid ⟨0, 0, 10, 10⟩ ∧ Box.valid ⟨5, 5, 15, 15⟩ ∧
    (0 ≤ iou ⟨0, 0, 10, 10⟩ ⟨5, 5, 15, 15⟩ ∧
      iou ⟨0, 0, 10, 10⟩ ⟨5, 5, 15, 15⟩ ≤ 1) :=
  ⟨by decide, by decide,
    (iou_spec_in_unit_interval ⟨0, 0, 10, 10⟩ ⟨5, 5, 15, 15⟩
      (by decide) (by decide)).2.2⟩

/-! ### Insertion-ordered dictionaries

Python dicts preserve first-insertion key order; they are modelled as
association lists with helpers mirroring `get`, `in`, and the
`d[k] = d.get(k, []) + [g]` idiom. -/

/-- An insertion-ordered dictionary keyed by image name. -/
abbrev AList (α : Type) := List (ℕ × α)

/-- Dictionary lookup, `d[k]` / `d.get(k)`. -/
def alistLookup {α : Type} (m : AList α) (k : ℕ) : Option α :=
  (m.find? (fun p => decide (p.1 = k))).map (fun p => p.2)

/-- Dictionary lookup with default, `d.get(k, dflt)`. -/
def alistGetD {α : Type} (m : AList α) (k : ℕ) (d : α) : α :=
  (alistLookup m k).getD d

/-- Key membership, `k in d`. -/
def alistHasKey {α : Type} (m : AList α) (k : ℕ) : Bool :=
  (alistLookup m k).isSome

/-- The idiom `d[k] = d.get(k, []) + [g]`: appends `g` to the entry of `k`
(dict keys are unique, so to the first and only one), creating the key at
the end of the dictionary if absent. -/
def alistAppendEntry {α : Type} (m : AList (List α)) (k : ℕ) (g : α) :
    AList (List α) :=
  match m with
  | [] => [(k, [g])]
  | p :: rest =>
    if p.1 = k then (p.1, p.2 ++ [g]) :: rest
    else p :: alistAppendEntry rest k g

/-! ### Matcher (`GetPascalVOCMetrics` lines 94-126)

The per-class loop over sorted detections.  `sys.float_info.min` is the
smallest positive normal double, exactly `2 ^ (-1022)`. -/

/-- The initial `iouMax`, `sys.float_info.min = 2 ^ (-1022)` (the smallest
positive normal double), written with `mkRat` so that it evaluates. -/
def epsMin : ℚ := mkRat 1 (2 ^ 1022)

/-- The inner `for j in range(len(gt))` loop: tracks the running maximum
IoU and the index of the last strict improvement (`jmax`).  `jo = none`
models the Python name `jmax` being still unassigned; the strict `>`
comparison makes the first index attaining the maximum win exact ties. -/
def iouScanAux (dbox : Box) : ℕ → ℚ → Option ℕ → List GT → ℚ × Option ℕ
  | _, m, jo, [] => (m, jo)
  | j, m, jo, g :: rest =>
    if m < iou dbox g.box then iouScanAux dbox (j + 1) (iou dbox g.box) (some j) rest
    else iouScanAux dbox (j + 1) m jo rest

/-- The scan as run by the source: `iouMax = sys.float_info.min`, `jmax`
unassigned. -/
def iouScan (dbox : Box) (gt : List GT) : ℚ × Option ℕ :=
  iouScanAux dbox 0 epsMin none gt

/-- IoU of a detection box against the `i`-th ground-truth record of its
image. -/
def gtIou (dbox : Box) (gt : List GT) (i : ℕ) : ℚ :=
  iou dbox ((gt.getD i default).box)

/-- State threaded through the detection loop: the `det` dictionary of
claimed-ground-truth flags, and the `TP` and `FP` arrays built so far. -/
structure MatchState where
  det : AList (List Bool)
  tps : List Bool
  fps : List Bool
deriving DecidableEq, Repr

/-- The mutation `det[imageName][jmax] = 1` (dict keys are unique, so it
reaches the first and only entry of the key). -/
def setFlag (m : AList (List Bool)) (k j : ℕ) : AList (List Bool) :=
  match m with
  | [] => []
  | p :: rest =>
    if p.1 = k then (p.1, p.2.set j true) :: rest
    else p :: setFlag rest k j

/-- One iteration of the detection loop (lines 103-126): look up the
ground truths of the detection's image, scan for the best IoU, then mark
TP (claiming the box) or FP.  Entering the TP/FP branch with `jmax` never
assigned is Python's `NameError`; it requires `IOUThreshold ≤ epsMin`, so
it is unreachable for any real threshold. -/
def matchStep (thr : ℚ) (gts : AList (List GT)) (st : MatchState) (d : Det) :
    Except PyError MatchState :=
  let gt := alistGetD gts d.imageName []
  let s := iouScan d.box gt
  if thr ≤ s.1 then
    match s.2 with
    | none => Except.error PyError.nameError
    | some j =>
      if (alistGetD st.det d.imageName []).getD j false = false then
        Except.ok ⟨setFlag st.det d.imageName j, st.tps ++ [true], st.fps ++ [false]⟩
      else Except.ok ⟨st.det, st.tps ++ [false], st.fps ++ [true]⟩
  else Except.ok ⟨st.det, st.tps ++ [false], st.fps ++ [true]⟩

/-- The dictionary `det = {key: np.zeros(len(gts[key])) for key in gts}`. -/
def detInit (gts : AList (List GT)) : AList (List Bool) :=
  gts.map (fun p => (p.1, p.2.map (fun _ => false)))

/-- The whole detection loop, over detections already sorted by
decreasing confidence. -/
def matchDetections (thr : ℚ) (gts : AList (List GT)) (dects : List Det) :
    Except PyError MatchState :=
  dects.foldlM (matchStep thr gts) ⟨detInit gts, [], []⟩

/-- Index `j` is the argmax of IoU over the image's ground truths, first
occurrence winning exact ties. -/
def isFirstArgmax (dbox : Box) (gt : List GT) (j : ℕ) : Prop :=
  (∀ i, i < gt.length → gtIou dbox gt i ≤ gtIou dbox gt j) ∧
  (∀ i, i < j → gtIou dbox gt i < gtIou dbox gt j)

theorem getD_mem_of_lt {α : Type} (l : List α) (d : α) :
    ∀ i, i < l.length → l.getD i d ∈ l := by
  induction l with
  | nil => intro i h; simp at h
  | cons a t ih =>
    intro i h
    cases i with
    | zero => simp
    | succ i =>
      simp only [List.getD_cons_succ]
      exact List.mem_cons_of_mem a (ih i (by simpa using h))

theorem foldl_max_init_le (f : GT → ℚ) :
    ∀ (l : List GT) (m : ℚ), m ≤ l.foldl (fun c g => max c (f g)) m := by
  intro l
  induction l with
  | nil => intro m; simp
  | cons g t ih =>
    intro m
    simpa using le_trans (le_max_left m (f g)) (ih (max m (f g)))

theorem foldl_max_elem_le (f : GT → ℚ) :
    ∀ (l : List GT) (m : ℚ) (g : GT), g ∈ l →
      f g ≤ l.foldl (fun c g => max c (f g)) m := by
  intro l
  induction l with
  | nil => intro m g h; simp at h
  | cons a t ih =>
    intro m g h
    rcases List.mem_cons.1 h with h | h
    · subst h
      exact le_trans (le_max_right m (f g)) (foldl_max_init_le f t (max m (f g)))
    · exact ih (max m (f a)) g h

theorem iouScanAux_fst (dbox : Box) :
    ∀ (gt : List GT) (j : ℕ) (m : ℚ) (jo : Option ℕ),
      (iouScanAux dbox j m jo gt).1 =
        gt.foldl (fun c g => max c (iou dbox g.box)) m := by
  intro gt
  induction gt with
  | nil => intro j m jo; rfl
  | cons g t ih =>
    intro j m jo
    by_cases h : m < iou dbox g.box
    · simp only [iouScanAux, if_pos h, List.foldl_cons, ih,
        max_eq_right (le_of_lt h)]
    · simp only [iouScanAux, if_neg h, List.foldl_cons, ih,
        max_eq_left (le_of_not_lt h)]

theorem iouScanAux_no_exceed (dbox : Box) :
    ∀ (gt : List GT) (j : ℕ) (m : ℚ) (jo : Option ℕ),
      (∀ g ∈ gt, iou dbox g.box ≤ m) →
      iouScanAux dbox j m jo gt = (m, jo) := by
  intro gt
  induction gt with
  | nil => intro j m jo _; rfl
  | cons g t ih =>
    intro j m jo h
    have hg : ¬m < iou dbox g.box := not_lt.2 (h g (List.mem_cons_self g t))
    simp only [iouScanAux, if_neg hg]
    exact ih (j + 1) m jo (fun g' hg' => h g' (List.mem_cons_of_mem g hg'))

theorem iouScanAux_argmax (dbox : Box) :
    ∀ (gt : List GT) (j0 : ℕ) (m : ℚ) (jo : Option ℕ),
      m < (iouScanAux dbox j0 m jo gt).1 →
      ∃ k, k < gt.length ∧
        (iouScanAux dbox j0 m jo gt).2 = some (j0 + k) ∧
        gtIou dbox gt k = (iouScanAux dbox j0 m jo gt).1 ∧
        (∀ i, i < k → gtIou dbox gt i < (iouScanAux dbox j0 m jo gt).1) := by
  intro gt
  induction gt with
  | nil => intro j0 m jo h; exact absurd h (lt_irrefl m)
  | cons g t ih =>
    intro j0 m jo h
    by_cases hg : m < iou dbox g.box
    · simp only [iouScanAux, if_pos hg] at h ⊢
      by_cases h2 : iou dbox g.box < (iouScanAux dbox (j0 + 1) (iou dbox g.box) (some j0) t).1
      · rcases ih (j0 + 1) (iou dbox g.box) (some j0) h2 with ⟨k, hk, hsnd, hval, hpre⟩
        refine ⟨k + 1, by simpa using Nat.succ_lt_succ hk, ?_, ?_, ?_⟩
        · rw [hsnd]; congr 1; omega
        · simpa [gtIou] using hval
        · intro i hi
          cases i with
          | zero => simpa [gtIou] using h2
          | succ i => simpa [gtIou] using hpre i (Nat.lt_of_succ_lt_succ hi)
      · have hge : iou dbox g.box ≤
            (iouScanAux dbox (j0 + 1) (iou dbox g.box) (some j0) t).1 := by
          rw [iouScanAux_fst dbox t (j0 + 1) (iou dbox g.box) (some j0)]
          exact foldl_max_init_le (fun g => iou dbox g.box) t (iou dbox g.box)
        have hfst : (iouScanAux dbox (j0 + 1) (iou dbox g.box) (some j0) t).1 =
            iou dbox g.box := le_antisymm (not_lt.1 h2) hge
        have hall : ∀ g' ∈ t, iou dbox g'.box ≤ iou dbox g.box := by
          intro g' hg'
          have := foldl_max_elem_le (fun g => iou dbox g.box) t (iou dbox g.box) g' hg'
          rw [← iouScanAux_fst dbox t (j0 + 1) (iou dbox g.box) (some j0)] at this
          exact le_trans this (le_of_eq hfst)
        have heq : iouScanAux dbox (j0 + 1) (iou dbox g.box) (some j0) t =
            (iou dbox g.box, some j0) :=
          iouScanAux_no_exceed dbox t (j0 + 1) (iou dbox g.box) (some j0) hall
        refine ⟨0, by simp, ?_, ?_, ?_⟩
        · rw [heq]; simp
        · rw [heq]; simp [gtIou]
        · intro i hi; exact absurd hi (Nat.not_lt_zero i)
    · simp only [iouScanAux, if_neg hg] at h ⊢
      rcases ih (j0 + 1) m jo h with ⟨k, hk, hsnd, hval, hpre⟩
      refine ⟨k + 1, by simpa using Nat.succ_lt_succ hk, ?_, ?_, ?_⟩
      · rw [hsnd]; congr 1; omega
      · simpa [gtIou] using hval
      · intro i hi
        cases i with
        | zero =>
          have hxm : iou dbox g.box ≤ m := le_of_not_lt hg
          have : m < (iouScanAux dbox (j0 + 1) m jo t).1 := h
          simpa [gtIou] using lt_of_le_of_lt hxm this
        | succ i => simpa [gtIou] using hpre i (Nat.lt_of_succ_lt_succ hi)


theorem iouScan_all_le (dbox : Box) (gt : List GT) :
    ∀ i, i < gt.length → gtIou dbox gt i ≤ (iouScan dbox gt).1 := by
  intro i hi
  unfold iouScan
  rw [iouScanAux_fst dbox gt 0 epsMin none]
  exact foldl_max_elem_le (fun g => iou dbox g.box) gt epsMin
    (gt.getD i default) (getD_mem_of_lt gt default i hi)

theorem firstArgmax_unique (dbox : Box) (gt : List GT) {j k : ℕ}
    (hj : j < gt.length) (hk : k < gt.length)
    (haj : isFirstArgmax dbox gt j) (hak : isFirstArgmax dbox gt k) : j = k := by
  have hjk : gtIou dbox gt j = gtIou dbox gt k :=
    le_antisymm (hak.1 j hj) (haj.1 k hk)
  rcases Nat.lt_trichotomy j k with h | h | h
  · exact absurd (hak.2 j h) (by rw [hjk]; exact lt_irrefl _)
  · exact h
  · exact absurd (haj.2 k h) (by rw [hjk]; exact lt_irrefl _)

/-- C2.  One step of the per-class matcher, for any threshold above the
`sys.float_info.min` sentinel (in particular the default 0.5): the
detection is marked TP, claiming its ground-truth box, exactly when the
first-occurrence argmax ground-truth box of its image has IoU at least the
threshold and is not yet claimed; otherwise it is marked FP and the
claimed flags are unchanged.  In particular (second conjunct), of two
above-threshold detections of one ground-truth box with confidences 0.9
and 0.7, the matcher marks the first TP and the second FP. -/
theorem matcher_tp_iff_unclaimed_first_argmax :
    (∀ (thr : ℚ) (gts : AList (List GT)) (st : MatchState) (d : Det),
      epsMin < thr →
      ∃ st', matchStep thr gts st d = Except.ok st' ∧
        ((∃ j, j < (alistGetD gts d.imageName []).length ∧
            isFirstArgmax d.box (alistGetD gts d.imageName []) j ∧
            thr ≤ gtIou d.box (alistGetD gts d.imageName []) j ∧
            (alistGetD st.det d.imageName []).getD j false = false ∧
            st' = ⟨setFlag st.det d.imageName j,
              st.tps ++ [true], st.fps ++ [false]⟩) ∨
          ((¬∃ j, j < (alistGetD gts d.imageName []).length ∧
              isFirstArgmax d.box (alistGetD gts d.imageName []) j ∧
              thr ≤ gtIou d.box (alistGetD gts d.imageName []) j ∧
              (alistGetD st.det d.imageName []).getD j false = false) ∧
            st' = ⟨st.det, st.tps ++ [false], st.fps ++ [true]⟩))) ∧
    matchDetections (1 / 2) [(1, [⟨1, 0, ⟨0, 0, 10, 10⟩⟩])]
        [⟨1, 0, 9 / 10, ⟨0, 0, 10, 10⟩⟩, ⟨1, 0, 7 / 10, ⟨0, 0, 10, 10⟩⟩] =
      Except.ok ⟨[(1, [true])], [true, false], [false, true]⟩ := by
  constructor
  · intro thr gts st d hthr
    by_cases hcmp : thr ≤ (iouScan d.box (alistGetD gts d.imageName [])).1
    · have hexceed : epsMin < (iouScan d.box (alistGetD gts d.imageName [])).1 :=
        lt_of_lt_of_le hthr hcmp
      rcases iouScanAux_argmax d.box (alistGetD gts d.imageName []) 0 epsMin none
          hexceed with ⟨k, hk, hsnd, hval, hpre⟩
      rw [Nat.zero_add] at hsnd
      have hargk : isFirstArgmax d.box (alistGetD gts d.imageName []) k := by
        refine ⟨fun i hi => ?_, fun i hi => ?_⟩
        · rw [hval]
          exact iouScan_all_le d.box (alistGetD gts d.imageName []) i hi
        · rw [hval]
          exact hpre i hi
      have hsnd' : (iouScan d.box (alistGetD gts d.imageName [])).2 = some k := hsnd
      by_cases hflag :
          (alistGetD st.det d.imageName []).getD k false = false
      · refine ⟨_, ?_, Or.inl ⟨k, hk, hargk, by rw [hval]; exact hcmp, hflag, rfl⟩⟩
        simp only [matchStep, if_pos hcmp, hsnd']
        rw [if_pos hflag]
      · refine ⟨_, ?_, Or.inr ⟨?_, rfl⟩⟩
        · simp only [matchStep, if_pos hcmp, hsnd']
          rw [if_neg hflag]
        · rintro ⟨j, hj, hargj, hthrj, hflagj⟩
          exact hflag (firstArgmax_unique d.box _ hj hk hargj hargk ▸ hflagj)
    · refine ⟨_, ?_, Or.inr ⟨?_, rfl⟩⟩
      · simp only [matchStep, if_neg hcmp]
      · rintro ⟨j, hj, _, hthrj, _⟩
        exact hcmp (le_trans hthrj
          (iouScan_all_le d.box (alistGetD gts d.imageName []) j hj))
  · rfl

/-- Concrete inputs for the `matcher_tp_iff_unclaimed_first_argmax`
witness: one ground truth of class 0 in image 1, one detection of the same
box. -/
def gtsW : AList (List GT) := [(1, [⟨1, 0, ⟨0, 0, 10, 10⟩⟩])]

/-- The detection used by the matcher witness. -/
def detW : Det := ⟨1, 0, 9 / 10, ⟨0, 0, 10, 10⟩⟩

/-- The initial matcher state used by the matcher witness. -/
def stW : MatchState := ⟨detInit gtsW, [], []⟩

/-- Witness for `matcher_tp_iff_unclaimed_first_argmax`: the hypothesis
`epsMin < thr` is discharged at the default threshold 0.5, with one
detection against one ground truth. -/
theorem matcher_tp_iff_unclaimed_first_argmax_witness :
    epsMin < 1 / 2 ∧
    (∃ st', matchStep (1 / 2) gtsW stW detW = Except.ok st' ∧
      ((∃ j, j < (alistGetD gtsW detW.imageName []).length ∧
          isFirstArgmax detW.box (alistGetD gtsW detW.imageName []) j ∧
          1 / 2 ≤ gtIou detW.box (alistGetD gtsW detW.imageName []) j ∧
          (alistGetD stW.det detW.imageName []).getD j false = false ∧
          st' = MatchState.mk (setFlag stW.det detW.imageName j)
            (stW.tps ++ [true]) (stW.fps ++ [false])) ∨
        ((¬∃ j, j < (alistGetD gtsW detW.imageName []).length ∧
            isFirstArgmax detW.box (alistGetD gtsW detW.imageName []) j ∧
            1 / 2 ≤ gtIou detW.box (alistGetD gtsW detW.imageName []) j ∧
            (alistGetD stW.det detW.imageName []).getD j false = false) ∧
          st' = MatchState.mk stW.det (stW.tps ++ [false]) (stW.fps ++ [true])))) :=
  ⟨by decide,
    matcher_tp_iff_unclaimed_first_argmax.1 (1 / 2) gtsW stW detW (by decide)⟩

/-! ### Curve builder and all-point AP interpolator
(`np.cumsum`, `CalculateAveragePrecision`, lines 128-131 and 301-321) -/

/-- numpy `cumsum` with an accumulator. -/
def cumsumFrom (acc : ℕ) : List ℕ → List ℕ
  | [] => []
  | x :: l => (acc + x) :: cumsumFrom (acc + x) l

/-- numpy `cumsum` over a 0/1 sequence of naturals. -/
def cumsum (l : List ℕ) : List ℕ := cumsumFrom 0 l

/-- The backward scan `for i in range(len(mpre)-1, 0, -1):
mpre[i-1] = max(mpre[i-1], mpre[i])`, which reads the already-updated
`mpre[i]`: from the tail, each entry becomes `max` of itself and the next
updated entry. -/
def backMax : List QN → List QN
  | [] => []
  | [a] => [a]
  | a :: b :: rest =>
    let r := backMax (b :: rest)
    pymax a (r.headD (some 0)) :: r

/-- The quadruple returned by both AP interpolators:
`[ap, mpre-slice, mrec-slice, ii]` (`ii` is `None`, modelled `[]`, for the
11-point method). -/
structure APResult where
  ap : QN
  mpreOut : List QN
  mrecOut : List QN
  ii : List ℕ
deriving DecidableEq, Repr

/-- Source `CalculateAveragePrecision`: pad recall with leading 0 and
trailing 1, precision with leading 0 and trailing 0, monotonize precision
backward, collect the transition indices `ii`, and sum
`(mrec[i] - mrec[i-1]) * mpre[i]` over them; returns the two arrays with
the final sentinel sliced off (`[0:len(mpre)-1]`). -/
def CalculateAveragePrecision (recs precs : List QN) : APResult :=
  let mrec := some 0 :: recs ++ [some 1]
  let mpre := backMax (some 0 :: precs ++ [some 0])
  let ii := (List.range (mrec.length - 1)).filterMap
    (fun i => if pyne (mrec.getD (i + 1) (some 0)) (mrec.getD i (some 0))
      then some (i + 1) else none)
  let ap := ii.foldl
    (fun a i => qnAdd a (qnMul
      (qnSub (mrec.getD i (some 0)) (mrec.getD (i - 1) (some 0)))
      (mpre.getD i (some 0)))) (some 0)
  ⟨ap, mpre.dropLast, mrec.dropLast, ii⟩

/-- Python `max` of two rationals (`b if b > a else a`). -/
def pymaxQ (x y : ℚ) : ℚ := if x < y then y else x

/-- The backward maximum scan on exact rationals. -/
def backMaxQ : List ℚ → List ℚ
  | [] => []
  | [a] => [a]
  | a :: b :: rest =>
    let r := backMaxQ (b :: rest)
    pymaxQ a (r.headD 0) :: r

/-- The padded recall array `[0] ++ rec ++ [1]` on exact rationals. -/
def mrecQ (recs : List ℚ) : List ℚ := 0 :: recs ++ [1]

/-- The padded and monotonized precision array on exact rationals. -/
def mpreQ (precs : List ℚ) : List ℚ := backMaxQ (0 :: precs ++ [0])

/-- The spec's description of all-point AP: the exact area under the
monotonized precision-recall step curve,
`sum over all i of (mrec[i] - mrec[i-1]) * mpre[i]`. -/
def specAllPointArea (recs precs : List ℚ) : ℚ :=
  ((List.range ((mrecQ recs).length - 1)).map
    (fun i => ((mrecQ recs).getD (i + 1) 0 - (mrecQ recs).getD i 0) *
      (mpreQ precs).getD (i + 1) 0)).sum

theorem pymax_some (x y : ℚ) : pymax (some x) (some y) = some (pymaxQ x y) := by
  simp only [pymax, pymaxQ]
  split <;> rfl

theorem headD_map_some (l : List ℚ) :
    (l.map some).headD (some 0) = some (l.headD 0) := by
  cases l <;> rfl

theorem backMax_map_some (l : List ℚ) :
    backMax (l.map some) = (backMaxQ l).map some := by
  induction l with
  | nil => rfl
  | cons a t ih =>
    cases t with
    | nil => rfl
    | cons b rest =>
      simp only [List.map_cons] at ih ⊢
      simp only [backMax, backMaxQ, ih, List.map_cons]
      rw [headD_map_some, pymax_some]

theorem getD_map_some (l : List ℚ) (d : ℚ) :
    ∀ i, (l.map some).getD i (some d) = some (l.getD i d) := by
  induction l with
  | nil => intro i; rfl
  | cons a t ih =>
    intro i
    cases i with
    | zero => rfl
    | succ i => simpa using ih i

theorem dropLast_map_some (l : List ℚ) :
    (l.map some).dropLast = l.dropLast.map some :=
  (List.map_dropLast some l).symm

theorem le_pymaxQ_right (x y : ℚ) : y ≤ pymaxQ x y := by
  unfold pymaxQ
  split
  · exact le_refl y
  · exact le_of_not_lt (by assumption)

theorem pymaxQ_le_left (x y : ℚ) : x ≤ pymaxQ x y := by
  unfold pymaxQ
  split
  · exact le_of_lt (by assumption)
  · exact le_refl x

theorem backMaxQ_ne_nil {l : List ℚ} (h : l ≠ []) : backMaxQ l ≠ [] := by
  cases l with
  | nil => exact absurd rfl h
  | cons a t =>
    cases t with
    | nil => simp [backMaxQ]
    | cons b rest => simp [backMaxQ]

theorem backMaxQ_antitone (l : List ℚ) :
    List.Chain' (fun a b => b ≤ a) (backMaxQ l) := by
  induction l with
  | nil => simp [backMaxQ]
  | cons a t ih =>
    cases t with
    | nil => simp [backMaxQ]
    | cons b rest =>
      simp only [backMaxQ]
      rw [List.chain'_cons']
      refine ⟨?_, ih⟩
      intro y hy
      have hne : backMaxQ (b :: rest) ≠ [] := backMaxQ_ne_nil (by simp)
      cases hbm : backMaxQ (b :: rest) with
      | nil => exact absurd hbm hne
      | cons h0 t0 =>
        rw [hbm] at hy
        simp only [List.head?_cons, Option.mem_def, Option.some.injEq] at hy
        subst hy
        simpa using le_pymaxQ_right a h0

theorem foldl_qn_map_some (m p : List ℚ) :
    ∀ (idxs : List ℕ) (c : ℚ),
      idxs.foldl (fun a i => qnAdd a (qnMul
        (qnSub ((m.map some).getD i (some 0)) ((m.map some).getD (i - 1) (some 0)))
        ((p.map some).getD i (some 0)))) (some c)
      = some (idxs.foldl
          (fun a i => a + (m.getD i 0 - m.getD (i - 1) 0) * p.getD i 0) c) := by
  intro idxs
  induction idxs with
  | nil => intro c; rfl
  | cons i t ih =>
    intro c
    have hstep : qnAdd (some c) (qnMul
        (qnSub ((m.map some).getD i (some 0)) ((m.map some).getD (i - 1) (some 0)))
        ((p.map some).getD i (some 0)))
        = some (c + (m.getD i 0 - m.getD (i - 1) 0) * p.getD i 0) := by
      rw [getD_map_some, getD_map_some, getD_map_some]
      rfl
    rw [List.foldl_cons, List.foldl_cons, hstep]
    exact ih _

theorem foldl_add_eq_sum (f : ℕ → ℚ) :
    ∀ (l : List ℕ) (c : ℚ), l.foldl (fun a i => a + f i) c = c + (l.map f).sum := by
  intro l
  induction l with
  | nil => intro c; simp
  | cons i t ih =>
    intro c
    simp only [List.foldl_cons, List.map_cons, List.sum_cons, ih, add_assoc]

theorem filterMap_ite_sum (f : ℕ → ℚ) (P : ℕ → Prop) [DecidablePred P] :
    ∀ l : List ℕ,
      ((l.filterMap (fun i => if P i then some (i + 1) else none)).map f).sum
        = (l.map (fun i => if P i then f (i + 1) else 0)).sum := by
  intro l
  induction l with
  | nil => rfl
  | cons i t ih =>
    by_cases h : P i
    · simp [List.filterMap_cons, h, ih]
    · simp [List.filterMap_cons, h, ih]

/-- C3.  For every recall/precision input pair, the all-point interpolator
pads recall `[0] ++ rec ++ [1]` and precision `[0] ++ prec ++ [0]`, makes
precision non-increasing by the tail-to-head backward maximum scan, and
its AP (the sum over recall-transition indices of
`(mrec[i] - mrec[i-1]) * mpre[i]`) equals the exact area under the
monotonized step curve, i.e. that same sum taken over every index; the
returned interpolated arrays are the padded/monotonized ones with the
final sentinel sliced off. -/
theorem allpoint_ap_is_exact_step_area (recs precs : List ℚ) :
    (CalculateAveragePrecision (recs.map some) (precs.map some)).ap
      = some (specAllPointArea recs precs) ∧
    List.Chain' (fun a b => b ≤ a) (mpreQ precs) ∧
    (CalculateAveragePrecision (recs.map some) (precs.map some)).mpreOut
      = ((mpreQ precs).map some).dropLast ∧
    (CalculateAveragePrecision (recs.map some) (precs.map some)).mrecOut
      = ((mrecQ recs).map some).dropLast := by
  have hmrec : some 0 :: recs.map some ++ [some 1] = (mrecQ recs).map some := by
    simp [mrecQ]
  have hmpre : backMax (some 0 :: precs.map some ++ [some 0]) =
      (mpreQ precs).map some := by
    have h0 : some 0 :: precs.map some ++ [some 0] = (0 :: precs ++ [0]).map some := by
      simp
    rw [h0, backMax_map_some]
    rfl
  have hii : (List.range ((some 0 :: recs.map some ++ [some 1]).length - 1)).filterMap
      (fun i => if pyne ((some 0 :: recs.map some ++ [some 1]).getD (i + 1) (some 0))
          ((some 0 :: recs.map some ++ [some 1]).getD i (some 0))
        then some (i + 1) else none) =
      (List.range ((mrecQ recs).length - 1)).filterMap
      (fun i => if (mrecQ recs).getD (i + 1) 0 ≠ (mrecQ recs).getD i 0
        then some (i + 1) else none) := by
    rw [hmrec, List.length_map]
    apply List.filterMap_congr
    intro i _
    rw [getD_map_some, getD_map_some]
    simp only [pyne]
    by_cases h : (mrecQ recs).getD (i + 1) 0 = (mrecQ recs).getD i 0 <;> simp [h]
  constructor
  · show (CalculateAveragePrecision (recs.map some) (precs.map some)).ap = _
    simp only [CalculateAveragePrecision, hmpre, hii]
    rw [hmrec]
    rw [foldl_qn_map_some (mrecQ recs) (mpreQ precs)]
    congr 1
    rw [foldl_add_eq_sum, zero_add]
    rw [filterMap_ite_sum
      (fun j => ((mrecQ recs).getD j 0 - (mrecQ recs).getD (j - 1) 0) *
        (mpreQ precs).getD j 0)
      (fun i => (mrecQ recs).getD (i + 1) 0 ≠ (mrecQ recs).getD i 0)]
    unfold specAllPointArea
    congr 1
    apply List.map_congr_left
    intro i _
    by_cases h : (mrecQ recs).getD (i + 1) 0 = (mrecQ recs).getD i 0
    · rw [if_neg (not_not_intro h), h, sub_self, zero_mul]
    · rw [if_pos h]
      simp
  · refine ⟨backMaxQ_antitone _, ?_, ?_⟩
    · show (CalculateAveragePrecision (recs.map some) (precs.map some)).mpreOut = _
      simp only [CalculateAveragePrecision, hmpre]
    · show (CalculateAveragePrecision (recs.map some) (precs.map some)).mrecOut = _
      simp only [CalculateAveragePrecision]
      rw [hmrec]

/-! ### 11-point AP interpolator (`ElevenPointInterpolatedAP`, lines 325-371) -/

/-- The recall levels `list(np.linspace(0, 1, 11)[::-1])`, modelled as exact
rationals `[1.0, 0.9, ..., 0.0]`. -/
def elevenLevels : List ℚ :=
  [1, 9/10, 4/5, 7/10, 3/5, 1/2, 2/5, 3/10, 1/5, 1/10, 0]

/-- Python `max(l)` over a list: the first element, replaced by any strictly
greater later element (`max([])` raises `ValueError`; the default is never
reached because the scanned suffix is nonempty). -/
def pymaxList : List QN → QN
  | [] => some 0
  | a :: r => r.foldl pymax a

/-- The index `np.argwhere(mrec >= r).min()`: the first position whose
recall is at least `r` (`none` when `argwhere` is empty). -/
def argFirstGe (r : ℚ) : List QN → Option ℕ
  | [] => none
  | x :: t => if pygeR x r then some 0 else (argFirstGe r t).map (fun i => i + 1)

/-- Python negative-index read `pvals[i]` for `i` possibly `-1`. -/
def pyGetNeg (l : List QN) (i : ℤ) : QN :=
  if i < 0 then l.getD (l.length - (-i).toNat) (some 0) else l.getD i.toNat (some 0)

/-- Source `ElevenPointInterpolatedAP`: for each of the 11 recall levels in
descending order, take `max(mpre[k:])` from the first operating point whose
recall reaches the level (0 when none does); AP is the sum of the 11 samples
divided by 11.  The tail builds the de-duplicated step curve `cc` used for
plotting (`rhoInterp`/`recallValues` of the returned quadruple); the `None`
fourth component is modelled as `[]`. -/
def ElevenPointInterpolatedAP (recs precs : List QN) : APResult :=
  let mrec := recs
  let mpre := precs
  let rhoInterp := elevenLevels.map (fun r =>
    match argFirstGe r mrec with
    | none => some 0
    | some k => pymaxList (mpre.drop k))
  let ap := qnDiv (rhoInterp.foldl qnAdd (some 0)) (some 11)
  let rvals := elevenLevels.headD 0 :: elevenLevels ++ [0]
  let pvals := some 0 :: rhoInterp ++ [some 0]
  let cc := (List.range rvals.length).foldl (fun (cc : List (ℚ × QN)) (i : ℕ) =>
    let p1 : ℚ × QN := (rvals.getD i 0, pyGetNeg pvals ((i : ℤ) - 1))
    let cc := if p1 ∈ cc then cc else cc ++ [p1]
    let p2 : ℚ × QN := (rvals.getD i 0, pvals.getD i (some 0))
    if p2 ∈ cc then cc else cc ++ [p2]) []
  ⟨ap, cc.map (fun q => q.2), cc.map (fun q => some q.1), []⟩

/-- The spec's description of one 11-point sample: the maximum precision
among operating points whose recall is at least the level, 0 if none
qualifies. -/
def spec11Sample (recs precs : List ℚ) (r : ℚ) : ℚ :=
  match (((recs.zip precs).filter (fun q => decide (r ≤ q.1))).map Prod.snd).max? with
  | none => 0
  | some m => m

theorem pymaxQ_eq_max (x y : ℚ) : pymaxQ x y = max x y := by
  unfold pymaxQ
  split
  · exact (max_eq_right (le_of_lt (by assumption))).symm
  · exact (max_eq_left (le_of_not_lt (by assumption))).symm

theorem foldl_pymaxQ_eq_max : ∀ (t : List ℚ) (a : ℚ),
    t.foldl pymaxQ a = t.foldl max a := by
  intro t
  induction t with
  | nil => intro a; rfl
  | cons b t ih => intro a; simp only [List.foldl_cons, pymaxQ_eq_max, ih]

theorem foldl_pymax_map_some : ∀ (t : List ℚ) (a : ℚ),
    (t.map some).foldl pymax (some a) = some (t.foldl pymaxQ a) := by
  intro t
  induction t with
  | nil => intro a; rfl
  | cons b t ih => intro a; simp only [List.map_cons, List.foldl_cons, pymax_some, ih]

theorem foldl_max_comm (t : List ℚ) : ∀ a b, t.foldl max (max a b) = max a (t.foldl max b) := by
  induction t with
  | nil => intro a b; rfl
  | cons c t ih =>
    intro a b
    simp only [List.foldl_cons]
    rw [max_assoc, ih]

theorem max?_eq_foldl : ∀ (t : List ℚ) (a : ℚ), (a :: t).max? = some (t.foldl max a) := by
  intro t
  induction t with
  | nil => intro a; rfl
  | cons b t ih =>
    intro a
    rw [List.max?_cons, ih b]
    simp only [Option.elim_some, List.foldl_cons]
    rw [← foldl_max_comm]

theorem foldl_max_mem : ∀ (t : List ℚ) (a : ℚ), t.foldl max a ∈ a :: t := by
  intro t
  induction t with
  | nil => intro a; simp
  | cons b t ih =>
    intro a
    simp only [List.foldl_cons]
    rcases List.mem_cons.1 (ih (max a b)) with h | h
    · rcases max_choice a b with hm | hm
      · exact List.mem_cons.2 (Or.inl (h.trans hm))
      · exact List.mem_cons.2 (Or.inr (List.mem_cons.2 (Or.inl (h.trans hm))))
    · exact List.mem_cons.2 (Or.inr (List.mem_cons.2 (Or.inr h)))

theorem argFirstGe_none_spec (r : ℚ) : ∀ rs : List ℚ,
    argFirstGe r (rs.map some) = none → ∀ x ∈ rs, ¬r ≤ x := by
  intro rs
  induction rs with
  | nil => intro _ x hx; simp at hx
  | cons a t ih =>
    intro h x hx
    simp only [List.map_cons, argFirstGe] at h
    by_cases ha : r ≤ a
    · rw [if_pos (by simpa [pygeR] using ha)] at h
      exact absurd h (by simp)
    · rw [if_neg (by simpa [pygeR] using ha)] at h
      rcases List.mem_cons.1 hx with hx | hx
      · subst hx; exact ha
      · exact ih (by simpa using h) x hx

theorem argFirstGe_some_spec (r : ℚ) : ∀ (rs : List ℚ) (k : ℕ),
    argFirstGe r (rs.map some) = some k → k < rs.length := by
  intro rs
  induction rs with
  | nil => intro k h; simp [argFirstGe] at h
  | cons a t ih =>
    intro k h
    simp only [List.map_cons, argFirstGe] at h
    by_cases ha : r ≤ a
    · rw [if_pos (by simpa [pygeR] using ha)] at h
      simp only [Option.some.injEq] at h
      subst h
      simp
    · rw [if_neg (by simpa [pygeR] using ha)] at h
      rcases Option.map_eq_some'.1 h with ⟨k', hk', rfl⟩
      simpa using Nat.succ_lt_succ (ih k' hk')

theorem filter_zip_eq_drop (r : ℚ) : ∀ (rs ps : List ℚ) (k : ℕ),
    List.Pairwise (fun a b => a ≤ b) rs →
    argFirstGe r (rs.map some) = some k →
    (rs.zip ps).filter (fun q => decide (r ≤ q.1)) = (rs.zip ps).drop k := by
  intro rs
  induction rs with
  | nil => intro ps k _ h; simp [argFirstGe] at h
  | cons a t ih =>
    intro ps k hp h
    simp only [List.map_cons, argFirstGe] at h
    by_cases ha : r ≤ a
    · rw [if_pos (by simpa [pygeR] using ha)] at h
      simp only [Option.some.injEq] at h
      subst h
      rw [List.drop_zero]
      rw [List.filter_eq_self]
      rintro ⟨q1, q2⟩ hq
      have hq1 := (List.of_mem_zip hq).1
      rcases List.mem_cons.1 hq1 with hh | hh
      · subst hh; simpa using ha
      · have := (List.pairwise_cons.1 hp).1 q1 hh
        simpa using le_trans ha this
    · rw [if_neg (by simpa [pygeR] using ha)] at h
      rcases Option.map_eq_some'.1 h with ⟨k', hk', rfl⟩
      cases ps with
      | nil => simp
      | cons b ps' =>
        have htail := ih ps' k' (List.pairwise_cons.1 hp).2 hk'
        simp only [List.zip_cons_cons, List.filter_cons, List.drop_succ_cons]
        rw [if_neg (by simpa using ha)]
        exact htail

theorem eleven_sample_eq (recs precs : List ℚ) (hlen : recs.length = precs.length)
    (hp : List.Pairwise (fun a b => a ≤ b) recs) (r : ℚ) :
    (match argFirstGe r (recs.map some) with
      | none => some 0
      | some k => pymaxList ((precs.map some).drop k))
      = some (spec11Sample recs precs r) := by
  cases harg : argFirstGe r (recs.map some) with
  | none =>
    have hfilt : (recs.zip precs).filter (fun q => decide (r ≤ q.1)) = [] := by
      rw [List.filter_eq_nil]
      rintro ⟨q1, q2⟩ hq
      have := argFirstGe_none_spec r recs harg q1 (List.of_mem_zip hq).1
      simpa using this
    simp [spec11Sample, hfilt]
  | some k =>
    have hk : k < recs.length := argFirstGe_some_spec r recs k harg
    have hfd := filter_zip_eq_drop r recs precs k hp harg
    have hkp : k < precs.length := hlen ▸ hk
    have hmapdrop : (precs.map some).drop k = (precs.drop k).map some :=
      (List.map_drop some precs k).symm
    have hne : ¬precs.drop k = [] := by
      rw [List.drop_eq_nil_iff_le]
      omega
    show pymaxList ((precs.map some).drop k) = some (spec11Sample recs precs r)
    cases hdk : precs.drop k with
    | nil => exact absurd hdk hne
    | cons a t =>
      rw [hmapdrop, hdk]
      simp only [List.map_cons, pymaxList]
      rw [foldl_pymax_map_some, foldl_pymaxQ_eq_max]
      have hsnd : ((recs.zip precs).drop k).map Prod.snd = precs.drop k := by
        rw [List.map_drop, List.map_snd_zip _ _ (le_of_eq hlen.symm)]
      unfold spec11Sample
      rw [hfd, hsnd, hdk, max?_eq_foldl]

theorem spec11Sample_bounds (recs precs : List ℚ)
    (hrange : ∀ q_ ∈ precs, 0 ≤ q_ ∧ q_ ≤ 1) (r : ℚ) :
    0 ≤ spec11Sample recs precs r ∧ spec11Sample recs precs r ≤ 1 := by
  unfold spec11Sample
  cases hm : (((recs.zip precs).filter (fun q => decide (r ≤ q.1))).map Prod.snd).max? with
  | none => norm_num
  | some m =>
    have hmem : m ∈ ((recs.zip precs).filter (fun q => decide (r ≤ q.1))).map Prod.snd := by
      cases hl : ((recs.zip precs).filter (fun q => decide (r ≤ q.1))).map Prod.snd with
      | nil => rw [hl] at hm; simp at hm
      | cons a t =>
        rw [hl, max?_eq_foldl] at hm
        simp only [Option.some.injEq] at hm
        rw [← hm]
        exact foldl_max_mem t a
    obtain ⟨q, hq, rfl⟩ := List.mem_map.1 hmem
    obtain ⟨q1, q2⟩ := q
    exact hrange _ (List.of_mem_zip (List.mem_filter.1 hq).1).2

theorem foldl_qnAdd_map_some : ∀ (l : List ℚ) (c : ℚ),
    (l.map some).foldl qnAdd (some c) = some (c + l.sum) := by
  intro l
  induction l with
  | nil => intro c; simp
  | cons a t ih =>
    intro c
    simp only [List.map_cons, List.foldl_cons, qnAdd, ih, List.sum_cons, add_assoc]

theorem qnDiv_some (x y : ℚ) :
    qnDiv (some x) (some y) = if y = 0 then none else some (x / y) := rfl

/-- C5.  For recall/precision operating points in the interpolator's input
domain (recall non-decreasing, precision values in `[0, 1]`, equal
lengths), the 11-point interpolator returns the arithmetic mean of exactly
11 sampled maxima, one per recall level in `[1.0, 0.9, ..., 0.0]`, each
sample being the maximum precision among operating points whose recall is
at least the level (0 when none qualifies), and each sample lies in
`[0, 1]`. -/
theorem elevenpoint_ap_is_mean_of_maxima (recs precs : List ℚ)
    (hlen : recs.length = precs.length)
    (hmono : List.Chain' (fun a b => a ≤ b) recs)
    (hrange : ∀ q_ ∈ precs, 0 ≤ q_ ∧ q_ ≤ 1) :
    (ElevenPointInterpolatedAP (recs.map some) (precs.map some)).ap
      = some ((elevenLevels.map (spec11Sample recs precs)).sum / 11) ∧
    elevenLevels.length = 11 ∧
    (∀ r ∈ elevenLevels,
      0 ≤ spec11Sample recs precs r ∧ spec11Sample recs precs r ≤ 1) := by
  have hp : List.Pairwise (fun a b => a ≤ b) recs :=
    List.chain'_iff_pairwise.1 hmono
  refine ⟨?_, rfl, fun r _ => spec11Sample_bounds recs precs hrange r⟩
  show (ElevenPointInterpolatedAP (recs.map some) (precs.map some)).ap = _
  simp only [ElevenPointInterpolatedAP]
  have hmap : elevenLevels.map (fun r =>
      match argFirstGe r (recs.map some) with
      | none => some 0
      | some k => pymaxList ((precs.map some).drop k))
      = (elevenLevels.map (spec11Sample recs precs)).map some := by
    rw [List.map_map]
    exact List.map_congr_left (fun r _ => eleven_sample_eq recs precs hlen hp r)
  rw [hmap, foldl_qnAdd_map_some, zero_add, qnDiv_some,
    if_neg (by norm_num : ¬(11 : ℚ) = 0)]

/-- Witness for `elevenpoint_ap_is_mean_of_maxima`: its hypotheses
discharged at a concrete two-point operating curve. -/
theorem elevenpoint_ap_is_mean_of_maxima_witness :
    ([(1 : ℚ)/2, 1].length = [(1 : ℚ), 1/2].length) ∧
    List.Chain' (fun a b => a ≤ b) [(1 : ℚ)/2, 1] ∧
    (∀ q_ ∈ [(1 : ℚ), 1/2], 0 ≤ q_ ∧ q_ ≤ 1) ∧
    ((ElevenPointInterpolatedAP ([(1 : ℚ)/2, 1].map some)
        ([(1 : ℚ), 1/2].map some)).ap
      = some ((elevenLevels.map (spec11Sample [(1 : ℚ)/2, 1] [(1 : ℚ), 1/2])).sum / 11) ∧
    elevenLevels.length = 11 ∧
    (∀ r ∈ elevenLevels,
      0 ≤ spec11Sample [(1 : ℚ)/2, 1] [(1 : ℚ), 1/2] r ∧
      spec11Sample [(1 : ℚ)/2, 1] [(1 : ℚ), 1/2] r ≤ 1)) :=
  ⟨rfl, by rw [List.chain'_cons]; exact ⟨by norm_num, List.chain'_singleton _⟩,
    by decide,
    elevenpoint_ap_is_mean_of_maxima [(1 : ℚ)/2, 1] [(1 : ℚ), 1/2] rfl
      (by rw [List.chain'_cons]; exact ⟨by norm_num, List.chain'_singleton _⟩)
      (by decide)⟩

/-! ### Class aggregator (`GetPascalVOCMetrics`, lines 52-152) -/

/-- The `MethodAveragePrecision` enumeration of `utils.py`. -/
inductive MethodAveragePrecision where
  | everyPointInterpolation
  | elevenPointInterpolation
deriving DecidableEq, Repr

/-- One entry of the returned per-class list (lines 140-150); the source
dict key `recall` is spelled `recallArr` because `recall` is a reserved
word here. -/
structure ClassResult where
  classId : ℕ
  precision : List QN
  recallArr : List QN
  AP : QN
  interpPrecision : List QN
  interpRecall : List QN
  totalPositives : ℕ
  totalTP : ℕ
  totalFP : ℕ
deriving DecidableEq, Repr

/-- `sorted(dects, key=lambda conf: conf[2], reverse=True)`: stable sort by
decreasing confidence (insertion sort is stable, like Python's sort). -/
def sortDets (dects : List Det) : List Det :=
  dects.insertionSort (fun a b => b.conf ≤ a.conf)

/-- The grouping loop (lines 87-92): `gts` maps each image to its
ground-truth records of class `c`, in input order, and `npos` counts
them. -/
def gtsForClass (groundTruths : List GT) (c : ℕ) : AList (List GT) × ℕ :=
  groundTruths.foldl
    (fun acc g =>
      if g.classId = c then (alistAppendEntry acc.1 g.imageName g, acc.2 + 1)
      else acc)
    ([], 0)

/-- One per-class pass (lines 82-151): filter the detections of class `c`,
group its ground truths, sort by confidence, run the matcher, cumulative-sum
TP/FP, divide into recall (`nan` when `npos = 0`, as numpy does) and
precision, and interpolate with the selected method. -/
def evalClass (thr : ℚ) (method : MethodAveragePrecision)
    (groundTruths : List GT) (detections : List Det) (c : ℕ) :
    Except PyError ClassResult :=
  let dects := detections.filter (fun d => decide (d.classId = c))
  let gn := gtsForClass groundTruths c
  match matchDetections thr gn.1 (sortDets dects) with
  | Except.error e => Except.error e
  | Except.ok st =>
    let accTP := cumsum (st.tps.map (fun b => if b then 1 else 0))
    let accFP := cumsum (st.fps.map (fun b => if b then 1 else 0))
    let recalls := accTP.map (fun (t : ℕ) => qnDiv (some (t : ℚ)) (some (gn.2 : ℚ)))
    let precisions := (accTP.zip accFP).map
      (fun (q : ℕ × ℕ) => qnDiv (some (q.1 : ℚ)) (some ((q.2 : ℚ) + (q.1 : ℚ))))
    let r := match method with
      | MethodAveragePrecision.everyPointInterpolation =>
        CalculateAveragePrecision recalls precisions
      | MethodAveragePrecision.elevenPointInterpolation =>
        ElevenPointInterpolatedAP recalls precisions
    Except.ok ⟨c, precisions, recalls, r.ap, r.mpreOut, r.mrecOut, gn.2,
      st.tps.count true, st.fps.count true⟩

/-- Accumulator of the splitting loop (lines 61-79). -/
structure SplitAcc where
  gts : List GT
  dets : List Det
  classes : List ℕ
deriving DecidableEq, Repr

/-- One iteration of the splitting loop: route the box by `BBType` and
collect its class id if unseen. -/
def splitStep (acc : SplitAcc) (bb : BB) : SplitAcc :=
  let acc1 := if bb.bbType = BBType.groundTruth
    then { acc with gts := acc.gts ++ [⟨bb.imageName, bb.classId, bb.box⟩] }
    else { acc with dets := acc.dets ++ [⟨bb.imageName, bb.classId, bb.confidence, bb.box⟩] }
  if bb.classId ∈ acc1.classes then acc1
  else { acc1 with classes := acc1.classes ++ [bb.classId] }

/-- The splitting loop over the whole box collection. -/
def splitBoxes (bbs : List BB) : SplitAcc :=
  bbs.foldl splitStep ⟨[], [], []⟩

/-- Source `GetPascalVOCMetrics`: split the collection, sort the class
labels, and run the per-class evaluation for each, appending to `ret`. -/
def GetPascalVOCMetrics (bbs : List BB) (thr : ℚ)
    (method : MethodAveragePrecision) : Except PyError (List ClassResult) :=
  let s := splitBoxes bbs
  ((s.classes.insertionSort (fun a b => a ≤ b)).foldlM
    (fun (acc : List ClassResult) c =>
      match evalClass thr method s.gts s.dets c with
      | Except.error e => Except.error e
      | Except.ok r => Except.ok (acc ++ [r])) [])

/-- C1 counterexample input: a single detection of class 5 with no ground
truth of any class. -/
def exNoPositives : List BB :=
  [⟨0, 5, 9 / 10, BBType.detected, ⟨0, 0, 10, 10⟩⟩]

/-- C1 counterexample.  On an input holding a detection of class 5 and no
ground truth of that class, `GetPascalVOCMetrics` does not raise any
error: it returns normally, with the class-5 recall array `[nan]`
(`0/0`, modelled `none`) and AP `nan` — no `NoPositivesError` exists in
the code. -/
theorem no_positives_returns_nan_not_error :
    GetPascalVOCMetrics exNoPositives (1 / 2)
        MethodAveragePrecision.everyPointInterpolation
      = Except.ok [⟨5, [some 0], [none], none, [some 0, some 0],
          [some 0, none], 0, 0, 1⟩] := by
  decide

/-! ### Matcher invariants: each TP claims exactly one fresh flag -/

/-- Number of claimed flags in the `det` dictionary. -/
def flagsCount (m : AList (List Bool)) : ℕ :=
  (m.map (fun p => p.2.count true)).sum

/-- Total number of flags in the `det` dictionary. -/
def flagsTotal (m : AList (List Bool)) : ℕ :=
  (m.map (fun p => p.2.length)).sum

/-- The `det` dictionary mirrors the `gts` dictionary: same keys in the
same order, one flag per ground-truth record. -/
def GoodShape (gts : AList (List GT)) (det : AList (List Bool)) : Prop :=
  List.Forall₂ (fun g f => g.1 = f.1 ∧ g.2.length = f.2.length) gts det

theorem alistLookup_cons {α : Type} (k' : ℕ) (v : α) (m : AList α) (k : ℕ) :
    alistLookup ((k', v) :: m) k = if k' = k then some v else alistLookup m k := by
  by_cases h : k' = k <;> simp [alistLookup, List.find?_cons, h]

theorem goodShape_detInit (gts : AList (List GT)) : GoodShape gts (detInit gts) := by
  induction gts with
  | nil => exact List.Forall₂.nil
  | cons p rest ih => exact List.Forall₂.cons ⟨rfl, by simp⟩ ih

theorem goodShape_lookup : ∀ {gts : AList (List GT)} {det : AList (List Bool)},
    GoodShape gts det → ∀ k gl, alistLookup gts k = some gl →
      ∃ fl, alistLookup det k = some fl ∧ fl.length = gl.length := by
  intro gts
  induction gts with
  | nil => intro det _ k gl hk; simp [alistLookup] at hk
  | cons g rest ih =>
    intro det h k gl hk
    cases h with
    | cons hgf hrest =>
      rename_i f det'
      obtain ⟨g1, g2⟩ := g
      obtain ⟨f1, f2⟩ := f
      obtain ⟨hkey, hlen⟩ := hgf
      simp only at hkey hlen
      rw [alistLookup_cons] at hk
      rw [alistLookup_cons]
      by_cases hk1 : g1 = k
      · rw [if_pos hk1] at hk
        injection hk with hgl
        subst hgl
        rw [if_pos (hkey ▸ hk1)]
        exact ⟨f2, rfl, hlen.symm⟩
      · rw [if_neg hk1] at hk
        rw [if_neg (by rw [← hkey]; exact hk1)]
        exact ih hrest k gl hk

theorem count_set_true : ∀ (l : List Bool) (j : ℕ), j < l.length →
    l.getD j false = false →
    (l.set j true).count true = l.count true + 1 := by
  intro l
  induction l with
  | nil => intro j hj _; simp at hj
  | cons b t ih =>
    intro j hj hb
    cases j with
    | zero =>
      simp only [List.getD_cons_zero] at hb
      subst hb
      simp [List.count_cons]
    | succ j =>
      simp only [List.getD_cons_succ] at hb
      have hrec := ih j (by simpa using hj) hb
      simp only [List.set_cons_succ, List.count_cons, hrec]
      omega

theorem flagsCount_setFlag : ∀ (m : AList (List Bool)) (k j : ℕ) (fl : List Bool),
    alistLookup m k = some fl → j < fl.length → fl.getD j false = false →
    flagsCount (setFlag m k j) = flagsCount m + 1 := by
  intro m
  induction m with
  | nil => intro k j fl h _ _; simp [alistLookup] at h
  | cons p rest ih =>
    intro k j fl h hj hb
    obtain ⟨k', v⟩ := p
    rw [alistLookup_cons] at h
    by_cases hk : k' = k
    · rw [if_pos hk] at h
      injection h with hv
      subst hv
      simp only [setFlag, if_pos hk, flagsCount, List.map_cons, List.sum_cons]
      rw [count_set_true v j hj hb]
      omega
    · rw [if_neg hk] at h
      simp only [setFlag, if_neg hk, flagsCount, List.map_cons, List.sum_cons]
      have hrec := ih k j fl h hj hb
      simp only [flagsCount] at hrec
      omega

theorem goodShape_setFlag : ∀ {gts : AList (List GT)} {det : AList (List Bool)},
    GoodShape gts det → ∀ k j, GoodShape gts (setFlag det k j) := by
  intro gts
  induction gts with
  | nil => intro det h k j; cases h; exact List.Forall₂.nil
  | cons g rest ih =>
    intro det h k j
    cases h with
    | cons hgf hrest =>
      rename_i f det'
      obtain ⟨f1, f2⟩ := f
      by_cases hk : f1 = k
      · simp only [setFlag, if_pos hk]
        exact List.Forall₂.cons ⟨hgf.1, by simpa using hgf.2⟩ hrest
      · simp only [setFlag, if_neg hk]
        exact List.Forall₂.cons hgf (ih hrest k j)

theorem flagsCount_le_flagsTotal : ∀ m : AList (List Bool),
    flagsCount m ≤ flagsTotal m := by
  intro m
  induction m with
  | nil => exact le_refl 0
  | cons p rest ih =>
    simp only [flagsCount, flagsTotal, List.map_cons, List.sum_cons]
    simp only [flagsCount, flagsTotal] at ih
    exact Nat.add_le_add (List.count_le_length _ _) ih

theorem flagsTotal_setFlag : ∀ (m : AList (List Bool)) (k j : ℕ),
    flagsTotal (setFlag m k j) = flagsTotal m := by
  intro m
  induction m with
  | nil => intro k j; rfl
  | cons p rest ih =>
    intro k j
    by_cases hk : p.1 = k
    · simp [setFlag, hk, flagsTotal]
    · simp only [setFlag, if_neg hk, flagsTotal, List.map_cons, List.sum_cons]
      simp only [flagsTotal] at ih
      rw [ih]

theorem flagsTotal_goodShape : ∀ {gts : AList (List GT)} {det : AList (List Bool)},
    GoodShape gts det → flagsTotal det = (gts.map (fun p => p.2.length)).sum := by
  intro gts
  induction gts with
  | nil => intro det h; cases h; rfl
  | cons g rest ih =>
    intro det h
    cases h with
    | cons hgf hrest =>
      simp only [flagsTotal, List.map_cons, List.sum_cons]
      rw [← hgf.2]
      have := ih hrest
      simp only [flagsTotal] at this
      rw [this]

theorem flagsCount_detInit (gts : AList (List GT)) : flagsCount (detInit gts) = 0 := by
  induction gts with
  | nil => rfl
  | cons p rest ih =>
    simp only [detInit, flagsCount, List.map_cons, List.sum_cons] at ih ⊢
    rw [ih]
    simp [List.count_eq_zero]

theorem iouScanAux_some_bound (dbox : Box) :
    ∀ (gt : List GT) (j0 : ℕ) (m : ℚ) (jo : Option ℕ) (k : ℕ),
      (iouScanAux dbox j0 m jo gt).2 = some k →
      jo = some k ∨ k < j0 + gt.length := by
  intro gt
  induction gt with
  | nil => intro j0 m jo k h; exact Or.inl h
  | cons g t ih =>
    intro j0 m jo k h
    by_cases hg : m < iou dbox g.box
    · simp only [iouScanAux, if_pos hg] at h
      rcases ih (j0 + 1) (iou dbox g.box) (some j0) k h with h1 | h1
      · injection h1 with h1
        subst h1
        right
        simp
      · right
        simp only [List.length_cons]
        omega
    · simp only [iouScanAux, if_neg hg] at h
      rcases ih (j0 + 1) m jo k h with h1 | h1
      · exact Or.inl h1
      · right
        simp only [List.length_cons]
        omega

theorem matchStep_inv (thr : ℚ) (gts : AList (List GT)) (st : MatchState)
    (d : Det) (st1 : MatchState)
    (h : matchStep thr gts st d = Except.ok st1) (hs : GoodShape gts st.det) :
    GoodShape gts st1.det ∧
    st1.tps.length = st.tps.length + 1 ∧
    st1.fps.length = st.fps.length + 1 ∧
    st1.tps.count true + st1.fps.count true
      = st.tps.count true + st.fps.count true + 1 ∧
    st1.tps.count true + flagsCount st.det
      = st.tps.count true + flagsCount st1.det := by
  simp only [matchStep] at h
  by_cases hcmp : thr ≤ (iouScan d.box (alistGetD gts d.imageName [])).1
  · rw [if_pos hcmp] at h
    split at h
    · exact absurd h (by simp)
    · rename_i k hjo
      have hk : k < (alistGetD gts d.imageName []).length := by
        rcases iouScanAux_some_bound d.box (alistGetD gts d.imageName []) 0
            epsMin none k hjo with h1 | h1
        · exact absurd h1 (by simp)
        · simpa using h1
      by_cases hflag : (alistGetD st.det d.imageName []).getD k false = false
      · rw [if_pos hflag] at h
        injection h with h1
        subst h1
        have hgl : ∃ gl, alistLookup gts d.imageName = some gl := by
          cases hlk : alistLookup gts d.imageName with
          | none =>
            exfalso
            rw [alistGetD, hlk] at hk
            simp at hk
          | some gl => exact ⟨gl, rfl⟩
        obtain ⟨gl, hlk⟩ := hgl
        obtain ⟨fl, hlkf, hlen⟩ := goodShape_lookup hs d.imageName gl hlk
        have hkfl : k < fl.length := by
          rw [hlen]
          rw [alistGetD, hlk] at hk
          simpa using hk
        have hflag2 : fl.getD k false = false := by
          rw [alistGetD, hlkf] at hflag
          simpa using hflag
        refine ⟨goodShape_setFlag hs _ _, by simp, by simp, ?_, ?_⟩
        · simp [List.count_append] <;> omega
        · have hfc := flagsCount_setFlag st.det d.imageName k fl hlkf hkfl hflag2
          simp only [List.count_append]
          rw [hfc]
          simp <;> omega
      · rw [if_neg hflag] at h
        injection h with h1
        subst h1
        refine ⟨hs, by simp, by simp, ?_, ?_⟩
        · simp [List.count_append] <;> omega
        · simp [List.count_append] <;> omega
  · rw [if_neg hcmp] at h
    injection h with h1
    subst h1
    refine ⟨hs, by simp, by simp, ?_, ?_⟩
    · simp [List.count_append] <;> omega
    · simp [List.count_append] <;> omega

theorem matchFold_inv (thr : ℚ) (gts : AList (List GT)) :
    ∀ (dects : List Det) (st st' : MatchState),
      dects.foldlM (matchStep thr gts) st = Except.ok st' →
      GoodShape gts st.det →
      GoodShape gts st'.det ∧
      st'.tps.length = st.tps.length + dects.length ∧
      st'.fps.length = st.fps.length + dects.length ∧
      st'.tps.count true + st'.fps.count true
        = st.tps.count true + st.fps.count true + dects.length ∧
      st'.tps.count true + flagsCount st.det
        = st.tps.count true + flagsCount st'.det := by
  intro dects
  induction dects with
  | nil =>
    intro st st' h hs
    simp only [List.foldlM_nil] at h
    injection h with h1
    subst h1
    exact ⟨hs, by simp, by simp, by simp, by omega⟩
  | cons d t ih =>
    intro st st' h hs
    rw [List.foldlM_cons] at h
    cases hstep : matchStep thr gts st d with
    | error e =>
      rw [hstep] at h
      exact absurd h (by simp [Bind.bind, Except.bind])
    | ok st1 =>
      rw [hstep] at h
      have hbind : t.foldlM (matchStep thr gts) st1 = Except.ok st' := by
        simpa [Bind.bind, Except.bind] using h
      obtain ⟨hs1, hl1, hl2, hc1, hf1⟩ := matchStep_inv thr gts st d st1 hstep hs
      obtain ⟨hs2, hl3, hl4, hc2, hf2⟩ := ih st1 st' hbind hs1
      refine ⟨hs2, ?_, ?_, ?_, ?_⟩
      · simp only [List.length_cons]
        omega
      · simp only [List.length_cons]
        omega
      · simp only [List.length_cons]
        omega
      · omega

theorem sumLens_appendEntry {α : Type} : ∀ (m : AList (List α)) (k : ℕ) (g : α),
    ((alistAppendEntry m k g).map (fun p => p.2.length)).sum
      = (m.map (fun p => p.2.length)).sum + 1 := by
  intro m
  induction m with
  | nil => intro k g; simp [alistAppendEntry]
  | cons p rest ih =>
    intro k g
    by_cases hk : p.1 = k
    · simp only [alistAppendEntry, if_pos hk, List.map_cons, List.sum_cons,
        List.length_append, List.length_singleton]
      omega
    · simp only [alistAppendEntry, if_neg hk, List.map_cons, List.sum_cons, ih]
      omega

theorem gtsForClass_fold_spec (c : ℕ) : ∀ (gs : List GT) (m : AList (List GT)) (n : ℕ),
    ((gs.foldl (fun acc g =>
        if g.classId = c then (alistAppendEntry acc.1 g.imageName g, acc.2 + 1)
        else acc) (m, n)).2
      = n + (gs.filter (fun g => decide (g.classId = c))).length) ∧
    (((gs.foldl (fun acc g =>
        if g.classId = c then (alistAppendEntry acc.1 g.imageName g, acc.2 + 1)
        else acc) (m, n)).1.map (fun p => p.2.length)).sum
      = (m.map (fun p => p.2.length)).sum
        + (gs.filter (fun g => decide (g.classId = c))).length) := by
  intro gs
  induction gs with
  | nil => intro m n; simp
  | cons g t ih =>
    intro m n
    by_cases hc : g.classId = c
    · simp only [List.foldl_cons, List.filter_cons]
      rw [if_pos hc, if_pos (show decide (g.classId = c) = true by simpa using hc)]
      obtain ⟨ih1, ih2⟩ := ih (alistAppendEntry m g.imageName g) (n + 1)
      refine ⟨?_, ?_⟩
      · rw [ih1]
        simp only [List.length_cons]
        omega
      · rw [ih2, sumLens_appendEntry]
        simp only [List.length_cons]
        omega
    · simp only [List.foldl_cons, List.filter_cons]
      rw [if_neg hc, if_neg (show ¬decide (g.classId = c) = true by simpa using hc)]
      exact ih m n

theorem gtsForClass_npos (groundTruths : List GT) (c : ℕ) :
    (gtsForClass groundTruths c).2
      = (groundTruths.filter (fun g => decide (g.classId = c))).length := by
  have := (gtsForClass_fold_spec c groundTruths [] 0).1
  simpa [gtsForClass] using this

theorem gtsForClass_sumLens (groundTruths : List GT) (c : ℕ) :
    (((gtsForClass groundTruths c).1).map (fun p => p.2.length)).sum
      = (gtsForClass groundTruths c).2 := by
  have h2 := (gtsForClass_fold_spec c groundTruths [] 0).2
  rw [gtsForClass_npos]
  simpa [gtsForClass] using h2

theorem cumsumFrom_length : ∀ (l : List ℕ) (a : ℕ),
    (cumsumFrom a l).length = l.length := by
  intro l
  induction l with
  | nil => intro a; rfl
  | cons x t ih => intro a; simp [cumsumFrom, ih]

theorem cumsumFrom_head_ge : ∀ (l : List ℕ) (a y : ℕ),
    (cumsumFrom a l).head? = some y → a ≤ y := by
  intro l
  cases l with
  | nil => intro a y h; simp [cumsumFrom] at h
  | cons x t =>
    intro a y h
    simp only [cumsumFrom, List.head?_cons, Option.some.injEq] at h
    omega

theorem cumsumFrom_chain : ∀ (l : List ℕ) (a : ℕ),
    List.Chain' (fun x y => x ≤ y) (cumsumFrom a l) := by
  intro l
  induction l with
  | nil => intro a; simp [cumsumFrom]
  | cons x t ih =>
    intro a
    simp only [cumsumFrom]
    rw [List.chain'_cons']
    exact ⟨fun y hy => cumsumFrom_head_ge t (a + x) y hy, ih (a + x)⟩

theorem cumsumFrom_getLast? : ∀ (l : List ℕ) (a : ℕ), l ≠ [] →
    (cumsumFrom a l).getLast? = some (a + l.sum) := by
  intro l
  induction l with
  | nil => intro a h; exact absurd rfl h
  | cons x t ih =>
    intro a _
    cases t with
    | nil => simp [cumsumFrom]
    | cons y t' =>
      have hrec := ih (a + x) (by simp)
      simp only [cumsumFrom] at hrec ⊢
      rw [List.getLast?_cons_cons]
      rw [hrec]
      simp only [List.sum_cons, Option.some.injEq]
      omega

theorem count_eq_sum_boolnat : ∀ l : List Bool,
    (l.map (fun b => if b then 1 else 0)).sum = l.count true := by
  intro l
  induction l with
  | nil => rfl
  | cons b t ih =>
    cases b <;> simp [List.count_cons, ih] <;> omega

theorem getLast?_map {α β : Type} (f : α → β) : ∀ l : List α,
    (l.map f).getLast? = l.getLast?.map f := by
  intro l
  induction l with
  | nil => rfl
  | cons a t ih =>
    cases t with
    | nil => rfl
    | cons b t' =>
      simp only [List.map_cons, List.getLast?_cons_cons] at ih ⊢
      simpa using ih

theorem evalClass_ok_inv (thr : ℚ) (method : MethodAveragePrecision)
    (groundTruths : List GT) (detections : List Det) (c : ℕ) (r : ClassResult)
    (h : evalClass thr method groundTruths detections c = Except.ok r) :
    r.classId = c ∧
    r.totalPositives = (groundTruths.filter (fun g => decide (g.classId = c))).length ∧
    r.totalTP + r.totalFP = (detections.filter (fun d => decide (d.classId = c))).length ∧
    r.totalTP ≤ r.totalPositives ∧
    (0 < r.totalPositives →
      ∃ vals : List ℚ,
        r.recallArr = vals.map some ∧
        List.Chain' (fun a b => a ≤ b) vals ∧
        (vals = [] ∨ vals.getLast? = some ((r.totalTP : ℚ) / (r.totalPositives : ℚ)))) ∧
    (r.totalPositives = 0 →
      r.recallArr.length = (detections.filter (fun d => decide (d.classId = c))).length ∧
      ∀ x ∈ r.recallArr, x = none) := by
  simp only [evalClass] at h
  split at h
  · exact absurd h (by simp)
  · rename_i st heq
    injection h with h1
    subst h1
    have hperm := (List.perm_insertionSort
      (fun a b : Det => b.conf ≤ a.conf)
      (detections.filter (fun d => decide (d.classId = c)))).length_eq
    obtain ⟨hsh, hlt, hlf, hct, hfl⟩ := matchFold_inv thr (gtsForClass groundTruths c).1
      (sortDets (detections.filter (fun d => decide (d.classId = c))))
      ⟨detInit (gtsForClass groundTruths c).1, [], []⟩ st heq (goodShape_detInit _)
    simp only [flagsCount_detInit, List.length_nil, List.count_nil, Nat.zero_add,
      Nat.add_zero] at hlt hlf hct hfl
    have hsortlen : (sortDets (detections.filter (fun d => decide (d.classId = c)))).length
        = (detections.filter (fun d => decide (d.classId = c))).length := hperm
    have htpflag : st.tps.count true = flagsCount st.det := hfl
    have htpbound : st.tps.count true ≤ (gtsForClass groundTruths c).2 := by
      rw [htpflag, ← gtsForClass_sumLens groundTruths c,
        ← flagsTotal_goodShape hsh]
      exact flagsCount_le_flagsTotal st.det
    refine ⟨rfl, ?_, ?_, ?_, ?_, ?_⟩
    · exact gtsForClass_npos groundTruths c
    · show st.tps.count true + st.fps.count true = _
      rw [hct, hsortlen]
    · exact htpbound
    · intro hpos
      have hnposne : ((gtsForClass groundTruths c).2 : ℚ) ≠ 0 :=
        Nat.cast_ne_zero.2 (Nat.pos_iff_ne_zero.1 hpos)
      refine ⟨(cumsum (st.tps.map (fun b => if b then 1 else 0))).map
        (fun (t : ℕ) => (t : ℚ) / ((gtsForClass groundTruths c).2 : ℚ)), ?_, ?_, ?_⟩
      · show (cumsum (st.tps.map (fun b => if b then 1 else 0))).map
            (fun (t : ℕ) => qnDiv (some (t : ℚ)) (some ((gtsForClass groundTruths c).2 : ℚ))) = _
        rw [List.map_map]
        apply List.map_congr_left
        intro t _
        simp only [Function.comp_apply, qnDiv_some, if_neg hnposne]
      · rw [List.chain'_map]
        refine (cumsumFrom_chain (st.tps.map (fun b => if b then 1 else 0)) 0).imp ?_
        intro a b hab
        have h1 : ((a : ℚ)) ≤ (b : ℚ) := Nat.cast_le.2 hab
        have h2 : (0 : ℚ) ≤ ((gtsForClass groundTruths c).2 : ℚ) := Nat.cast_nonneg _
        exact div_le_div_of_nonneg_right h1 h2
      · cases htl : st.tps with
        | nil => left; simp [cumsum, cumsumFrom, htl]
        | cons b bs =>
          right
          rw [getLast?_map]
          have hgl := cumsumFrom_getLast? ((b :: bs).map (fun x => if x then 1 else 0)) 0
            (by simp)
          rw [cumsum, hgl]
          simp only [Nat.zero_add]
          rw [count_eq_sum_boolnat]
          rfl
    · intro hzero
      constructor
      · show ((cumsum (st.tps.map (fun b => if b then 1 else 0))).map _).length = _
        rw [List.length_map, cumsum, cumsumFrom_length, List.length_map, hlt, hsortlen]
      · intro x hx
        obtain ⟨t, _, rfl⟩ := List.mem_map.1 hx
        have hzero2 : (gtsForClass groundTruths c).2 = 0 := hzero
        show qnDiv (some (t : ℚ)) (some ((gtsForClass groundTruths c).2 : ℚ)) = none
        rw [hzero2]
        simp [qnDiv]

theorem foldClasses_mem (thr : ℚ) (method : MethodAveragePrecision)
    (gts : List GT) (dets : List Det) :
    ∀ (cls : List ℕ) (acc rets : List ClassResult),
      cls.foldlM (fun (acc : List ClassResult) c =>
        match evalClass thr method gts dets c with
        | Except.error e => Except.error e
        | Except.ok r => Except.ok (acc ++ [r])) acc = Except.ok rets →
      (∀ x ∈ acc, x ∈ rets) ∧
      (∀ r ∈ rets, r ∈ acc ∨ ∃ c ∈ cls, evalClass thr method gts dets c = Except.ok r) ∧
      (∀ c ∈ cls, ∃ r ∈ rets, evalClass thr method gts dets c = Except.ok r) := by
  intro cls
  induction cls with
  | nil =>
    intro acc rets h
    simp only [List.foldlM_nil] at h
    injection h with h1
    subst h1
    exact ⟨fun x hx => hx, fun r hr => Or.inl hr, fun c hc => absurd hc (by simp)⟩
  | cons c t ih =>
    intro acc rets h
    rw [List.foldlM_cons] at h
    cases hev : evalClass thr method gts dets c with
    | error e =>
      rw [hev] at h
      exact absurd h (by simp [Bind.bind, Except.bind])
    | ok r1 =>
      rw [hev] at h
      have hrest : t.foldlM (fun (acc : List ClassResult) c =>
          match evalClass thr method gts dets c with
          | Except.error e => Except.error e
          | Except.ok r => Except.ok (acc ++ [r])) (acc ++ [r1]) = Except.ok rets := by
        simpa [Bind.bind, Except.bind] using h
      obtain ⟨ih1, ih2, ih3⟩ := ih (acc ++ [r1]) rets hrest
      refine ⟨?_, ?_, ?_⟩
      · intro x hx
        exact ih1 x (by simp [hx])
      · intro r hr
        rcases ih2 r hr with hmem | ⟨c', hc', hev'⟩
        · rcases List.mem_append.1 hmem with hmem | hmem
          · exact Or.inl hmem
          · right
            refine ⟨c, List.mem_cons_self c t, ?_⟩
            rw [hev]
            have hrr : r = r1 := by simpa using hmem
            rw [hrr]
        · exact Or.inr ⟨c', List.mem_cons_of_mem c hc', hev'⟩
      · intro c' hc'
        rcases List.mem_cons.1 hc' with hc1 | hc1
        · subst hc1
          exact ⟨r1, ih1 r1 (by simp), hev⟩
        · exact ih3 c' hc1

theorem splitBoxes_fold_spec : ∀ (bbs : List BB) (acc : SplitAcc),
    (bbs.foldl splitStep acc).gts = acc.gts ++
      (bbs.filter (fun bb => decide (bb.bbType = BBType.groundTruth))).map
        (fun bb => ⟨bb.imageName, bb.classId, bb.box⟩) ∧
    (bbs.foldl splitStep acc).dets = acc.dets ++
      (bbs.filter (fun bb => decide (bb.bbType = BBType.detected))).map
        (fun bb => ⟨bb.imageName, bb.classId, bb.confidence, bb.box⟩) ∧
    (∀ c, c ∈ (bbs.foldl splitStep acc).classes ↔
      c ∈ acc.classes ∨ ∃ bb ∈ bbs, bb.classId = c) := by
  intro bbs
  induction bbs with
  | nil => intro acc; simp
  | cons bb t ih =>
    intro acc
    rw [List.foldl_cons]
    obtain ⟨ih1, ih2, ih3⟩ := ih (splitStep acc bb)
    have hgts : (splitStep acc bb).gts = acc.gts ++
        (if bb.bbType = BBType.groundTruth
          then [⟨bb.imageName, bb.classId, bb.box⟩] else []) := by
      simp only [splitStep]
      cases hb : bb.bbType
      · simp [apply_ite SplitAcc.gts]
      · simp [apply_ite SplitAcc.gts]
    have hdets : (splitStep acc bb).dets = acc.dets ++
        (if bb.bbType = BBType.detected
          then [⟨bb.imageName, bb.classId, bb.confidence, bb.box⟩] else []) := by
      simp only [splitStep]
      cases hb : bb.bbType
      · simp [apply_ite SplitAcc.dets]
      · simp [apply_ite SplitAcc.dets]
    have hcls : ∀ c, c ∈ (splitStep acc bb).classes ↔
        c ∈ acc.classes ∨ bb.classId = c := by
      intro c
      have hcls1 : (splitStep acc bb).classes =
          if bb.classId ∈ acc.classes then acc.classes
          else acc.classes ++ [bb.classId] := by
        simp only [splitStep]
        cases hb : bb.bbType
        · simp [apply_ite SplitAcc.classes]
        · simp [apply_ite SplitAcc.classes]
      rw [hcls1]
      by_cases hmem : bb.classId ∈ acc.classes
      · rw [if_pos hmem]
        constructor
        · exact fun h1 => Or.inl h1
        · rintro (h1 | h1)
          · exact h1
          · rw [← h1]; exact hmem
      · rw [if_neg hmem]
        constructor
        · intro h1
          rcases List.mem_append.1 h1 with h2 | h2
          · exact Or.inl h2
          · refine Or.inr ?_
            have hcc : c = bb.classId := by simpa using h2
            exact hcc.symm
        · rintro (h1 | h1)
          · exact List.mem_append.2 (Or.inl h1)
          · exact List.mem_append.2 (Or.inr (by simp [h1]))
    refine ⟨?_, ?_, ?_⟩
    · rw [ih1, hgts, List.filter_cons]
      by_cases hb : bb.bbType = BBType.groundTruth
      · rw [if_pos hb, if_pos (by simpa using hb)]
        simp
      · rw [if_neg hb, if_neg (by simpa using hb)]
        simp
    · rw [ih2, hdets, List.filter_cons]
      by_cases hb : bb.bbType = BBType.detected
      · rw [if_pos hb, if_pos (by simpa using hb)]
        simp
      · rw [if_neg hb, if_neg (by simpa using hb)]
        simp
    · intro c
      rw [ih3 c, hcls c]
      constructor
      · rintro (⟨h1 | h1⟩ | ⟨bb', hbb', h1⟩)
        · exact Or.inl h1
        · exact Or.inr ⟨bb, List.mem_cons_self bb t, h1⟩
        · exact Or.inr ⟨bb', List.mem_cons_of_mem bb hbb', h1⟩
      · rintro (h1 | ⟨bb', hbb', h1⟩)
        · exact Or.inl (Or.inl h1)
        · rcases List.mem_cons.1 hbb' with h2 | h2
          · subst h2
            exact Or.inl (Or.inr h1)
          · exact Or.inr ⟨bb', h2, h1⟩

theorem matchStep_isOk (thr : ℚ) (gts : AList (List GT)) (st : MatchState)
    (d : Det) (hthr : epsMin < thr) :
    ∃ st', matchStep thr gts st d = Except.ok st' := by
  by_cases hcmp : thr ≤ (iouScan d.box (alistGetD gts d.imageName [])).1
  · have hexceed : epsMin < (iouScan d.box (alistGetD gts d.imageName [])).1 :=
      lt_of_lt_of_le hthr hcmp
    rcases iouScanAux_argmax d.box (alistGetD gts d.imageName []) 0 epsMin none
        hexceed with ⟨k, _, hsnd, _, _⟩
    rw [Nat.zero_add] at hsnd
    have hsnd2 : (iouScan d.box (alistGetD gts d.imageName [])).2 = some k := hsnd
    by_cases hflag : (alistGetD st.det d.imageName []).getD k false = false
    · refine ⟨⟨setFlag st.det d.imageName k, st.tps ++ [true], st.fps ++ [false]⟩, ?_⟩
      simp only [matchStep, if_pos hcmp, hsnd2]
      rw [if_pos hflag]
    · refine ⟨⟨st.det, st.tps ++ [false], st.fps ++ [true]⟩, ?_⟩
      simp only [matchStep, if_pos hcmp, hsnd2]
      rw [if_neg hflag]
  · refine ⟨⟨st.det, st.tps ++ [false], st.fps ++ [true]⟩, ?_⟩
    simp only [matchStep, if_neg hcmp]

theorem matchDetections_isOk (thr : ℚ) (gts : AList (List GT))
    (hthr : epsMin < thr) :
    ∀ (dects : List Det) (st : MatchState),
      ∃ st', dects.foldlM (matchStep thr gts) st = Except.ok st' := by
  intro dects
  induction dects with
  | nil => intro st; exact ⟨st, rfl⟩
  | cons d t ih =>
    intro st
    obtain ⟨st1, hst1⟩ := matchStep_isOk thr gts st d hthr
    obtain ⟨st', hst'⟩ := ih st1
    refine ⟨st', ?_⟩
    rw [List.foldlM_cons, hst1]
    simpa [Bind.bind, Except.bind] using hst'

theorem evalClass_isOk (thr : ℚ) (method : MethodAveragePrecision)
    (groundTruths : List GT) (detections : List Det) (c : ℕ)
    (hthr : epsMin < thr) :
    ∃ r, evalClass thr method groundTruths detections c = Except.ok r := by
  cases hev : evalClass thr method groundTruths detections c with
  | ok r => exact ⟨r, rfl⟩
  | error e =>
    exfalso
    obtain ⟨st, hst⟩ := matchDetections_isOk thr (gtsForClass groundTruths c).1 hthr
      (sortDets (detections.filter (fun d => decide (d.classId = c))))
      ⟨detInit (gtsForClass groundTruths c).1, [], []⟩
    simp only [evalClass, matchDetections] at hev
    rw [hst] at hev
    simp at hev

theorem foldClasses_isOk (thr : ℚ) (method : MethodAveragePrecision)
    (gts : List GT) (dets : List Det) (hthr : epsMin < thr) :
    ∀ (cls : List ℕ) (acc : List ClassResult),
      ∃ rets, cls.foldlM (fun (acc : List ClassResult) c =>
        match evalClass thr method gts dets c with
        | Except.error e => Except.error e
        | Except.ok r => Except.ok (acc ++ [r])) acc = Except.ok rets := by
  intro cls
  induction cls with
  | nil => intro acc; exact ⟨acc, rfl⟩
  | cons c t ih =>
    intro acc
    obtain ⟨r1, hr1⟩ := evalClass_isOk thr method gts dets c hthr
    obtain ⟨rets, hrets⟩ := ih (acc ++ [r1])
    refine ⟨rets, ?_⟩
    rw [List.foldlM_cons, hr1]
    simpa [Bind.bind, Except.bind] using hrets

theorem GetPascalVOCMetrics_isOk (bbs : List BB) (thr : ℚ)
    (method : MethodAveragePrecision) (hthr : epsMin < thr) :
    ∃ rets, GetPascalVOCMetrics bbs thr method = Except.ok rets := by
  simp only [GetPascalVOCMetrics]
  exact foldClasses_isOk thr method (splitBoxes bbs).gts (splitBoxes bbs).dets hthr
    ((splitBoxes bbs).classes.insertionSort (fun a b => a ≤ b)) []

theorem splitBoxes_dets_filter_length (bbs : List BB) (c : ℕ) :
    ((splitBoxes bbs).dets.filter (fun d => decide (d.classId = c))).length =
    (bbs.filter (fun bb =>
      decide (bb.bbType = BBType.detected) && decide (bb.classId = c))).length := by
  obtain ⟨_, hdets, _⟩ := splitBoxes_fold_spec bbs ⟨[], [], []⟩
  rw [show (splitBoxes bbs).dets = (bbs.foldl splitStep ⟨[], [], []⟩).dets from rfl, hdets]
  simp only [List.nil_append, List.filter_map, List.length_map, List.filter_filter]
  apply congrArg List.length
  apply List.filter_congr
  intro bb _
  simp [Function.comp, Bool.and_comm]

theorem splitBoxes_gts_filter_length (bbs : List BB) (c : ℕ) :
    ((splitBoxes bbs).gts.filter (fun g => decide (g.classId = c))).length =
    (bbs.filter (fun bb =>
      decide (bb.bbType = BBType.groundTruth) && decide (bb.classId = c))).length := by
  obtain ⟨hgts, _, _⟩ := splitBoxes_fold_spec bbs ⟨[], [], []⟩
  rw [show (splitBoxes bbs).gts = (bbs.foldl splitStep ⟨[], [], []⟩).gts from rfl, hgts]
  simp only [List.nil_append, List.filter_map, List.length_map, List.filter_filter]
  apply congrArg List.length
  apply List.filter_congr
  intro bb _
  simp [Function.comp, Bool.and_comm]

/-- C6.  For every class result returned by `GetPascalVOCMetrics`:
`totalTP + totalFP` equals the number of detected boxes of that class in
the input collection, `totalTP ≤ totalPositives`, and whenever
`totalPositives > 0` the recall sequence is a non-decreasing list of
rationals whose last element is `totalTP / totalPositives`. -/
theorem voc_class_result_invariants (bbs : List BB) (thr : ℚ)
    (method : MethodAveragePrecision) (rets : List ClassResult)
    (h : GetPascalVOCMetrics bbs thr method = Except.ok rets) :
    ∀ r ∈ rets,
      r.totalTP + r.totalFP =
        (bbs.filter (fun bb =>
          decide (bb.bbType = BBType.detected) && decide (bb.classId = r.classId))).length ∧
      r.totalTP ≤ r.totalPositives ∧
      (0 < r.totalPositives →
        ∃ vals : List ℚ,
          r.recallArr = vals.map some ∧
          List.Chain' (fun a b => a ≤ b) vals ∧
          (vals = [] ∨ vals.getLast? = some ((r.totalTP : ℚ) / (r.totalPositives : ℚ)))) := by
  intro r hr
  simp only [GetPascalVOCMetrics] at h
  obtain ⟨_, hmem, _⟩ := foldClasses_mem thr method (splitBoxes bbs).gts (splitBoxes bbs).dets
    ((splitBoxes bbs).classes.insertionSort (fun a b => a ≤ b)) [] rets h
  rcases hmem r hr with hempty | ⟨c, _, hev⟩
  · exact absurd hempty (by simp)
  · obtain ⟨hcls, _, hsum, hle, hrec, _⟩ :=
      evalClass_ok_inv thr method (splitBoxes bbs).gts (splitBoxes bbs).dets c r hev
    refine ⟨?_, hle, hrec⟩
    rw [hsum, hcls, splitBoxes_dets_filter_length]

/-- C6 witness input: one ground truth of class 0 on image 1 and two
detections of class 0 on image 1, one matching and one off to the side. -/
def exC6 : List BB :=
  [⟨1, 0, 1, BBType.groundTruth, ⟨0, 0, 10, 10⟩⟩,
   ⟨1, 0, 9/10, BBType.detected, ⟨0, 0, 10, 10⟩⟩,
   ⟨1, 0, 4/5, BBType.detected, ⟨20, 20, 30, 30⟩⟩]

theorem voc_class_result_invariants_witness :
    (⟨0, [some 1, some (1/2)], [some 1, some 1], some 1,
        [some 1, some 1, some (1/2)], [some 0, some 1, some 1], 1, 1, 1⟩ :
          ClassResult).totalTP +
      (⟨0, [some 1, some (1/2)], [some 1, some 1], some 1,
        [some 1, some 1, some (1/2)], [some 0, some 1, some 1], 1, 1, 1⟩ :
          ClassResult).totalFP =
        (exC6.filter (fun bb =>
          decide (bb.bbType = BBType.detected) &&
          decide (bb.classId = (⟨0, [some 1, some (1/2)], [some 1, some 1], some 1,
            [some 1, some 1, some (1/2)], [some 0, some 1, some 1], 1, 1, 1⟩ :
              ClassResult).classId))).length ∧
      (⟨0, [some 1, some (1/2)], [some 1, some 1], some 1,
        [some 1, some 1, some (1/2)], [some 0, some 1, some 1], 1, 1, 1⟩ :
          ClassResult).totalTP ≤
        (⟨0, [some 1, some (1/2)], [some 1, some 1], some 1,
          [some 1, some 1, some (1/2)], [some 0, some 1, some 1], 1, 1, 1⟩ :
            ClassResult).totalPositives ∧
      (0 < (⟨0, [some 1, some (1/2)], [some 1, some 1], some 1,
          [some 1, some 1, some (1/2)], [some 0, some 1, some 1], 1, 1, 1⟩ :
            ClassResult).totalPositives →
        ∃ vals : List ℚ,
          (⟨0, [some 1, some (1/2)], [some 1, some 1], some 1,
            [some 1, some 1, some (1/2)], [some 0, some 1, some 1], 1, 1, 1⟩ :
              ClassResult).recallArr = vals.map some ∧
          List.Chain' (fun a b => a ≤ b) vals ∧
          (vals = [] ∨ vals.getLast? =
            some (((⟨0, [some 1, some (1/2)], [some 1, some 1], some 1,
              [some 1, some 1, some (1/2)], [some 0, some 1, some 1], 1, 1, 1⟩ :
                ClassResult).totalTP : ℚ) /
              ((⟨0, [some 1, some (1/2)], [some 1, some 1], some 1,
                [some 1, some 1, some (1/2)], [some 0, some 1, some 1], 1, 1, 1⟩ :
                  ClassResult).totalPositives : ℚ)))) :=
  voc_class_result_invariants exC6 (1/2) MethodAveragePrecision.everyPointInterpolation
    [⟨0, [some 1, some (1/2)], [some 1, some 1], some 1,
      [some 1, some 1, some (1/2)], [some 0, some 1, some 1], 1, 1, 1⟩]
    (by decide) _ (List.mem_singleton.2 rfl)

theorem splitBoxes_classes_mem (bbs : List BB) (c : ℕ) :
    c ∈ (splitBoxes bbs).classes ↔ ∃ bb ∈ bbs, bb.classId = c := by
  obtain ⟨_, _, hcls⟩ := splitBoxes_fold_spec bbs ⟨[], [], []⟩
  rw [show (splitBoxes bbs).classes = (bbs.foldl splitStep ⟨[], [], []⟩).classes from rfl]
  rw [hcls c]
  simp

/-- C1 (amended).  When the input holds a detection of class `c` but no
ground truth of class `c`, `GetPascalVOCMetrics` does not raise any error:
it returns normally, and the result record for class `c` has
`totalPositives = 0` and a nonempty recall array made entirely of `nan`
(the numpy quotient `acc_TP / 0`), which thus propagates downstream. -/
theorem no_positives_nan_propagates (bbs : List BB) (thr : ℚ)
    (method : MethodAveragePrecision) (c : ℕ)
    (hthr : epsMin < thr)
    (hdet : ∃ bb ∈ bbs, bb.bbType = BBType.detected ∧ bb.classId = c)
    (hnogt : ∀ bb ∈ bbs, bb.bbType = BBType.groundTruth → bb.classId ≠ c) :
    ∃ rets, GetPascalVOCMetrics bbs thr method = Except.ok rets ∧
      ∃ r ∈ rets, r.classId = c ∧ r.totalPositives = 0 ∧
        r.recallArr ≠ [] ∧ ∀ x ∈ r.recallArr, x = none := by
  obtain ⟨rets, hok⟩ := GetPascalVOCMetrics_isOk bbs thr method hthr
  refine ⟨rets, hok, ?_⟩
  simp only [GetPascalVOCMetrics] at hok
  obtain ⟨_, _, hall⟩ := foldClasses_mem thr method (splitBoxes bbs).gts (splitBoxes bbs).dets
    ((splitBoxes bbs).classes.insertionSort (fun a b => a ≤ b)) [] rets hok
  obtain ⟨bb0, hbb0, hbb0d, hbb0c⟩ := hdet
  have hcmem : c ∈ (splitBoxes bbs).classes.insertionSort (fun a b => a ≤ b) :=
    (List.perm_insertionSort (fun a b => a ≤ b) (splitBoxes bbs).classes).mem_iff.2
      ((splitBoxes_classes_mem bbs c).2 ⟨bb0, hbb0, hbb0c⟩)
  obtain ⟨r, hr, hev⟩ := hall c hcmem
  obtain ⟨hcls, hnpos, _, _, _, hzero⟩ :=
    evalClass_ok_inv thr method (splitBoxes bbs).gts (splitBoxes bbs).dets c r hev
  have hgtzero : ((splitBoxes bbs).gts.filter (fun g => decide (g.classId = c))).length = 0 := by
    rw [splitBoxes_gts_filter_length]
    rw [List.length_eq_zero]
    rw [List.filter_eq_nil_iff]
    intro bb hbb
    simp only [Bool.and_eq_true, decide_eq_true_eq, not_and]
    intro hgt
    exact hnogt bb hbb hgt
  have hnpos0 : r.totalPositives = 0 := by rw [hnpos, hgtzero]
  obtain ⟨hlen, hnone⟩ := hzero hnpos0
  refine ⟨r, hr, hcls, hnpos0, ?_, hnone⟩
  have hdetpos : 0 < ((splitBoxes bbs).dets.filter (fun d => decide (d.classId = c))).length := by
    rw [splitBoxes_dets_filter_length]
    rw [List.length_pos_iff_exists_mem]
    refine ⟨bb0, ?_⟩
    rw [List.mem_filter]
    exact ⟨hbb0, by simp [hbb0d, hbb0c]⟩
  intro hnil
  rw [hnil] at hlen
  simp only [List.length_nil] at hlen
  omega

theorem no_positives_nan_propagates_witness :
    (epsMin < 1/2 ∧
      (∃ bb ∈ exNoPositives, bb.bbType = BBType.detected ∧ bb.classId = 5) ∧
      (∀ bb ∈ exNoPositives, bb.bbType = BBType.groundTruth → bb.classId ≠ 5)) ∧
    ∃ rets, GetPascalVOCMetrics exNoPositives (1/2)
        MethodAveragePrecision.everyPointInterpolation = Except.ok rets ∧
      ∃ r ∈ rets, r.classId = 5 ∧ r.totalPositives = 0 ∧
        r.recallArr ≠ [] ∧ ∀ x ∈ r.recallArr, x = none :=
  ⟨⟨by decide, by decide, by decide⟩,
    no_positives_nan_propagates exNoPositives (1/2)
      MethodAveragePrecision.everyPointInterpolation 5
      (by decide) (by decide) (by decide)⟩

theorem evalClass_empty_dets (thr : ℚ) (method : MethodAveragePrecision)
    (groundTruths : List GT) (detections : List Det) (c : ℕ)
    (h : detections.filter (fun d => decide (d.classId = c)) = []) :
    ∃ npos mpre mrec, evalClass thr method groundTruths detections c =
      Except.ok ⟨c, [], [], some 0, mpre, mrec, npos, 0, 0⟩ := by
  simp only [evalClass, h]
  cases method with
  | everyPointInterpolation => exact ⟨_, _, _, rfl⟩
  | elevenPointInterpolation => exact ⟨_, _, _, rfl⟩

/-- C7.  A class that has ground-truth boxes but no detections is not an
error: `GetPascalVOCMetrics` returns normally, and the record for that
class has empty precision and recall arrays and average precision 0. -/
theorem zero_detections_class_ok (bbs : List BB) (thr : ℚ)
    (method : MethodAveragePrecision) (c : ℕ)
    (hthr : epsMin < thr)
    (hgt : ∃ bb ∈ bbs, bb.bbType = BBType.groundTruth ∧ bb.classId = c)
    (hnodet : ∀ bb ∈ bbs, bb.bbType = BBType.detected → bb.classId ≠ c) :
    ∃ rets, GetPascalVOCMetrics bbs thr method = Except.ok rets ∧
      ∃ r ∈ rets, r.classId = c ∧ r.precision = [] ∧ r.recallArr = [] ∧
        r.AP = some 0 := by
  obtain ⟨rets, hok⟩ := GetPascalVOCMetrics_isOk bbs thr method hthr
  refine ⟨rets, hok, ?_⟩
  simp only [GetPascalVOCMetrics] at hok
  obtain ⟨_, _, hall⟩ := foldClasses_mem thr method (splitBoxes bbs).gts (splitBoxes bbs).dets
    ((splitBoxes bbs).classes.insertionSort (fun a b => a ≤ b)) [] rets hok
  obtain ⟨bb0, hbb0, hbb0g, hbb0c⟩ := hgt
  have hcmem : c ∈ (splitBoxes bbs).classes.insertionSort (fun a b => a ≤ b) :=
    (List.perm_insertionSort (fun a b => a ≤ b) (splitBoxes bbs).classes).mem_iff.2
      ((splitBoxes_classes_mem bbs c).2 ⟨bb0, hbb0, hbb0c⟩)
  obtain ⟨r, hr, hev⟩ := hall c hcmem
  have hdempty : (splitBoxes bbs).dets.filter (fun d => decide (d.classId = c)) = [] := by
    rw [← List.length_eq_zero, splitBoxes_dets_filter_length, List.length_eq_zero,
      List.filter_eq_nil_iff]
    intro bb hbb
    simp only [Bool.and_eq_true, decide_eq_true_eq, not_and]
    intro hdt
    exact hnodet bb hbb hdt
  obtain ⟨npos, mpre, mrec, hev2⟩ :=
    evalClass_empty_dets thr method (splitBoxes bbs).gts (splitBoxes bbs).dets c hdempty
  rw [hev] at hev2
  injection hev2 with h1
  refine ⟨r, hr, ?_, ?_, ?_, ?_⟩ <;> rw [h1]

theorem zero_detections_class_ok_witness :
    (epsMin < 1/2 ∧
      (∃ bb ∈ ([⟨2, 7, 1, BBType.groundTruth, ⟨0, 0, 4, 4⟩⟩] : List BB),
        bb.bbType = BBType.groundTruth ∧ bb.classId = 7) ∧
      (∀ bb ∈ ([⟨2, 7, 1, BBType.groundTruth, ⟨0, 0, 4, 4⟩⟩] : List BB),
        bb.bbType = BBType.detected → bb.classId ≠ 7)) ∧
    ∃ rets, GetPascalVOCMetrics [⟨2, 7, 1, BBType.groundTruth, ⟨0, 0, 4, 4⟩⟩] (1/2)
        MethodAveragePrecision.elevenPointInterpolation = Except.ok rets ∧
      ∃ r ∈ rets, r.classId = 7 ∧ r.precision = [] ∧ r.recallArr = [] ∧
        r.AP = some 0 :=
  ⟨⟨by decide, by decide, by decide⟩,
    zero_detections_class_ok [⟨2, 7, 1, BBType.groundTruth, ⟨0, 0, 4, 4⟩⟩] (1/2)
      MethodAveragePrecision.elevenPointInterpolation 7
      (by decide) (by decide) (by decide)⟩

/-! ### `GetRelativeMetrics_F1` (lines 439-590) -/

/-- The class whitelist `classes = ['3', '6', '4', '8']` shared by both
relative-metric functions (car, bus, train, truck). -/
def relClasses : List ℕ := [3, 6, 4, 8]

/-- A per-frame record `[classId, confidence, box]` kept by the F1
collection loop. -/
structure EntF1 where
  classId : ℕ
  conf : ℚ
  box : Box
deriving DecidableEq, Repr

/-- The idiom `if k not in d: d[k] = v`: adds the key at the end of the
dictionary only when it is absent. -/
def dictInitKey {α : Type} (m : AList α) (k : ℕ) (v : α) : AList α :=
  if alistHasKey m k then m else m ++ [(k, v)]

/-- Direct indexing `d[k]`: `KeyError` when the key is absent. -/
def dictGet {α : Type} (m : AList α) (k : ℕ) : Except PyError α :=
  match alistLookup m k with
  | some v => Except.ok v
  | none => Except.error PyError.keyError

/-- Accumulator of the F1 collection loop: the two per-image dictionaries
and `detected_frames_lst`. -/
structure F1Acc where
  gt : AList (List EntF1)
  det : AList (List EntF1)
  lst : List ℕ
deriving DecidableEq, Repr

/-- One iteration of the F1 collection loop (lines 516-540): the image key
is initialized in BOTH dictionaries, the frame is recorded in
`detected_frames_lst` for ANY detection — before the whitelist and
confidence checks — and the record itself is appended only when it passes
them. -/
def collectF1Step (cg cd : ℚ) (acc : F1Acc) (bb : BB) : F1Acc :=
  let g1 := dictInitKey acc.gt bb.imageName []
  let d1 := dictInitKey acc.det bb.imageName []
  if bb.bbType = BBType.groundTruth then
    if bb.classId ∈ relClasses ∧ cg ≤ bb.confidence then
      ⟨alistAppendEntry g1 bb.imageName ⟨bb.classId, bb.confidence, bb.box⟩, d1, acc.lst⟩
    else ⟨g1, d1, acc.lst⟩
  else
    let l1 := if bb.imageName ∈ acc.lst then acc.lst else acc.lst ++ [bb.imageName]
    if bb.classId ∈ relClasses ∧ cd ≤ bb.confidence then
      ⟨g1, alistAppendEntry d1 bb.imageName ⟨bb.classId, bb.confidence, bb.box⟩, l1⟩
    else ⟨g1, d1, l1⟩

/-- The whole F1 collection loop. -/
def collectF1Boxes (bbs : List BB) (cg cd : ℚ) : F1Acc :=
  bbs.foldl (collectF1Step cg cd) ⟨[], [], []⟩

/-- Per-image tally of the inner `_evaluate` (lines 454-478): a detection
is a true positive when some ground truth of the frame overlaps it with
IoU at or above the threshold (`iou(bb_gt[2], bb_det[2])`, ground truth
first); otherwise a false positive.  A ground truth with no overlapping
detection is a false negative, and `count` is incremented for every ground
truth. -/
def tallyImage (thr : ℚ) (gts dets : List EntF1) : ℕ × ℕ × ℕ × ℕ :=
  (dets.countP (fun d => gts.any (fun g => decide (thr ≤ iou g.box d.box))),
   dets.countP (fun d => !gts.any (fun g => decide (thr ≤ iou g.box d.box))),
   gts.countP (fun g => !dets.any (fun d => decide (thr ≤ iou g.box d.box))),
   gts.length)

/-- Round-half-to-even at integer precision, as Python `round` on an exact
value. -/
def roundHalfEven (q : ℚ) : ℤ :=
  let f := q.floor
  let r := q - (f : ℚ)
  if r < 1/2 then f
  else if 1/2 < r then f + 1
  else if f % 2 = 0 then f else f + 1

/-- Python `round(q, 3)`. -/
def pyRound3 (q : ℚ) : ℚ := (roundHalfEven (q * 1000) : ℚ) / 1000

/-- `round(a / b, 3)` as written at lines 492-494: the division is
unguarded, so a zero denominator raises a plain `ZeroDivisionError`. -/
def pyDivRound3 (a b : ℚ) : Except PyError ℚ :=
  if b = 0 then Except.error PyError.zeroDivision
  else Except.ok (pyRound3 (a / b))

/-- The per-image loop of `_evaluate` (lines 450-483): iterate over the
keys of the ground-truth dictionary, index the detection dictionary with
the same key, tally each image.  The per-image results are collected in
order (`tp_list`/`fp_list`/`fn_list`/`count_list`). -/
def tallyFold (thr : ℚ) (gtd detd : AList (List EntF1)) :
    Except PyError (List (ℕ × ℕ × ℕ × ℕ)) :=
  gtd.foldlM (fun (acc : List (ℕ × ℕ × ℕ × ℕ)) kv =>
    match dictGet detd kv.1 with
    | Except.error e => Except.error e
    | Except.ok bbDets => Except.ok (acc ++ [tallyImage thr kv.2 bbDets])) []

/-- `sum(lst)`. -/
def sumNat (l : List ℕ) : ℕ := l.foldl (fun a b => a + b) 0

/-- The result tuple of `_evaluate`:
`tp, fp, fn, count, precision, recall, f1`. -/
structure F1Ret where
  tp : ℕ
  fp : ℕ
  fn : ℕ
  count : ℕ
  prec : ℚ
  rc : ℚ
  f1 : ℚ
deriving DecidableEq, Repr

/-- The inner `_evaluate` (lines 443-496): tally every image of the
ground-truth dictionary, sum the tallies, then compute the three rounded
ratios — each an unguarded division (`precision` first). -/
def evaluateF1 (thr : ℚ) (gtd detd : AList (List EntF1)) :
    Except PyError F1Ret :=
  match tallyFold thr gtd detd with
  | Except.error e => Except.error e
  | Except.ok stats =>
    let tp := sumNat (stats.map (fun s => s.1))
    let fp := sumNat (stats.map (fun s => s.2.1))
    let fn := sumNat (stats.map (fun s => s.2.2.1))
    let count := sumNat (stats.map (fun s => s.2.2.2))
    match pyDivRound3 (tp : ℚ) ((tp : ℚ) + (fp : ℚ)) with
    | Except.error e => Except.error e
    | Except.ok pr =>
      match pyDivRound3 (tp : ℚ) ((tp : ℚ) + (fn : ℚ)) with
      | Except.error e => Except.error e
      | Except.ok rcl =>
        match pyDivRound3 (2 * (tp : ℚ)) (2 * (tp : ℚ) + (fp : ℚ) + (fn : ℚ)) with
        | Except.error e => Except.error e
        | Except.ok f1v => Except.ok ⟨tp, fp, fn, count, pr, rcl, f1v⟩

/-- Lines 568-573: rebuild both dictionaries keeping only the frames of
`detected_frames_lst`, iterating over the ground-truth dictionary keys and
indexing the detection dictionary directly. -/
def restrictDetected (acc : F1Acc) :
    Except PyError (AList (List EntF1) × AList (List EntF1)) :=
  acc.gt.foldlM (fun (p : AList (List EntF1) × AList (List EntF1)) kv =>
    if kv.1 ∈ acc.lst then
      match dictGet acc.det kv.1 with
      | Except.error e => Except.error e
      | Except.ok v => Except.ok (p.1 ++ [(kv.1, kv.2)], p.2 ++ [(kv.1, v)])
    else Except.ok p) ([], [])

/-- The returned dictionary: the two F1 tuples and the frame statistics. -/
structure F1Output where
  allFrames : F1Ret
  detectedFrames : F1Ret
  totalFrames : ℕ
  detectedCount : ℕ
deriving DecidableEq, Repr

/-- Source `GetRelativeMetrics_F1` (lines 439-590): collect the per-image
dictionaries, evaluate over all frames, restrict to the frames of
`detected_frames_lst`, evaluate again, and return both with the frame
counts. -/
def GetRelativeMetrics_F1 (bbs : List BB) (cg cd thr : ℚ) :
    Except PyError F1Output :=
  let acc := collectF1Boxes bbs cg cd
  match evaluateF1 thr acc.gt acc.det with
  | Except.error e => Except.error e
  | Except.ok total =>
    match restrictDetected acc with
    | Except.error e => Except.error e
    | Except.ok gd =>
      match evaluateF1 thr gd.1 gd.2 with
      | Except.error e => Except.error e
      | Except.ok detRet =>
        Except.ok ⟨total, detRet, acc.gt.length, acc.lst.length⟩

/-! ### C4: the spec-side reading of the detected-frames rule -/

/-- Spec-side rule for the second variant: the frames kept are those where
at least one detection SURVIVED the whitelist and confidence filters. -/
def specDetectedPostFilter (acc : F1Acc) : List ℕ :=
  (acc.det.filter (fun kv => decide (kv.2 ≠ []))).map (fun kv => kv.1)

/-- Spec-side restriction: like `restrictDetected` but keeping the
post-filter detected frames. -/
def specRestrictDetected (acc : F1Acc) :
    Except PyError (AList (List EntF1) × AList (List EntF1)) :=
  acc.gt.foldlM (fun (p : AList (List EntF1) × AList (List EntF1)) kv =>
    if kv.1 ∈ specDetectedPostFilter acc then
      match dictGet acc.det kv.1 with
      | Except.error e => Except.error e
      | Except.ok v => Except.ok (p.1 ++ [(kv.1, kv.2)], p.2 ++ [(kv.1, v)])
    else Except.ok p) ([], [])

/-- Spec-side "Detected Frames F1" value. -/
def specDetectedEvaluate (bbs : List BB) (cg cd thr : ℚ) :
    Except PyError F1Ret :=
  let acc := collectF1Boxes bbs cg cd
  match specRestrictDetected acc with
  | Except.error e => Except.error e
  | Except.ok gd => evaluateF1 thr gd.1 gd.2

/-- C4 counterexample input: frame 0 holds a matching whitelisted ground
truth and detection; frame 1 holds a whitelisted ground truth and a single
detection of class 1 — not whitelisted, so frame 1 has no surviving
detection, yet it enters `detected_frames_lst`. -/
def exC4 : List BB :=
  [⟨0, 3, 1, BBType.groundTruth, ⟨0, 0, 10, 10⟩⟩,
   ⟨0, 3, 1, BBType.detected, ⟨0, 0, 10, 10⟩⟩,
   ⟨1, 3, 1, BBType.groundTruth, ⟨0, 0, 10, 10⟩⟩,
   ⟨1, 1, 1, BBType.detected, ⟨0, 0, 10, 10⟩⟩]

theorem collectF1Step_lst (cg cd : ℚ) (acc : F1Acc) (bb : BB) :
    (collectF1Step cg cd acc bb).lst =
      if bb.bbType = BBType.groundTruth then acc.lst
      else if bb.imageName ∈ acc.lst then acc.lst
        else acc.lst ++ [bb.imageName] := by
  simp only [collectF1Step]
  cases hb : bb.bbType
  · simp [apply_ite F1Acc.lst]
  · simp [apply_ite F1Acc.lst]

theorem collectF1_lst_fold (cg cd : ℚ) : ∀ (bbs : List BB) (acc : F1Acc) (i : ℕ),
    i ∈ (bbs.foldl (collectF1Step cg cd) acc).lst ↔
      i ∈ acc.lst ∨ ∃ bb ∈ bbs, bb.bbType = BBType.detected ∧ bb.imageName = i := by
  intro bbs
  induction bbs with
  | nil => intro acc i; simp
  | cons bb t ih =>
    intro acc i
    rw [List.foldl_cons, ih (collectF1Step cg cd acc bb) i, collectF1Step_lst]
    by_cases hb : bb.bbType = BBType.groundTruth
    · rw [if_pos hb]
      constructor
      · rintro (h | ⟨bb', h1, h2, h3⟩)
        · exact Or.inl h
        · exact Or.inr ⟨bb', List.mem_cons_of_mem bb h1, h2, h3⟩
      · rintro (h | ⟨bb', h1, h2, h3⟩)
        · exact Or.inl h
        · rcases List.mem_cons.1 h1 with h4 | h4
          · subst h4
            rw [hb] at h2
            exact absurd h2 (by simp)
          · exact Or.inr ⟨bb', h4, h2, h3⟩
    · have hdet : bb.bbType = BBType.detected := by
        cases hbb : bb.bbType
        · exact absurd hbb hb
        · rfl
      rw [if_neg hb]
      have hmem : i ∈ (if bb.imageName ∈ acc.lst then acc.lst
          else acc.lst ++ [bb.imageName]) ↔ i ∈ acc.lst ∨ bb.imageName = i := by
        by_cases hin : bb.imageName ∈ acc.lst
        · rw [if_pos hin]
          constructor
          · exact fun h => Or.inl h
          · rintro (h | h)
            · exact h
            · rw [← h]; exact hin
        · rw [if_neg hin]
          simp [eq_comm]
      rw [hmem]
      constructor
      · rintro ((h | h) | ⟨bb', h1, h2, h3⟩)
        · exact Or.inl h
        · exact Or.inr ⟨bb, List.mem_cons_self bb t, hdet, h⟩
        · exact Or.inr ⟨bb', List.mem_cons_of_mem bb h1, h2, h3⟩
      · rintro (h | ⟨bb', h1, h2, h3⟩)
        · exact Or.inl (Or.inl h)
        · rcases List.mem_cons.1 h1 with h4 | h4
          · subst h4
            exact Or.inl (Or.inr h3)
          · exact Or.inr ⟨bb', h4, h2, h3⟩

/-- C4 counterexample.  On `exC4` the code's "Detected Frames F1" keeps
both frames (`count = 2`, recall `1/2`) because frame 1 has a raw
detection, while the spec-side post-filter restriction keeps only frame 0
(`count = 1`, recall `1`): the second variant is NOT restricted to frames
with a surviving (post-filter) detection. -/
theorem detected_frames_post_filter_counterexample :
    GetRelativeMetrics_F1 exC4 (1/5) (1/5) (1/2) =
      Except.ok ⟨⟨1, 0, 1, 2, 1, 1/2, 667/1000⟩, ⟨1, 0, 1, 2, 1, 1/2, 667/1000⟩, 2, 2⟩ ∧
    specDetectedEvaluate exC4 (1/5) (1/5) (1/2) =
      Except.ok ⟨1, 0, 0, 1, 1, 1, 1⟩ ∧
    (⟨1, 0, 1, 2, 1, 1/2, 667/1000⟩ : F1Ret) ≠ ⟨1, 0, 0, 1, 1, 1, 1⟩ := by
  refine ⟨by decide, by decide, by decide⟩

/-- C4 (amended).  A frame enters `detected_frames_lst` — the set the
"Detected Frames F1" variant is restricted to — precisely when the
evaluated detector produced at least one RAW detection there: the
whitelist and confidence filters play no part in the selection. -/
theorem detected_frames_lst_pre_filter (bbs : List BB) (cg cd : ℚ) (i : ℕ) :
    i ∈ (collectF1Boxes bbs cg cd).lst ↔
      ∃ bb ∈ bbs, bb.bbType = BBType.detected ∧ bb.imageName = i := by
  rw [collectF1Boxes, collectF1_lst_fold cg cd bbs ⟨[], [], []⟩ i]
  simp

/-- C8 counterexample input: one whitelisted ground truth and no
detection at all, so the summed `tp + fp` is zero. -/
def exC8 : List BB :=
  [⟨0, 3, 1, BBType.groundTruth, ⟨0, 0, 10, 10⟩⟩]

/-- C8 counterexample.  With zero surviving detections the division
`tp/(tp+fp)` at line 492 is unguarded: `GetRelativeMetrics_F1` raises a
plain `ZeroDivisionError` — there is no `UndefinedMetricError` naming the
offending metric anywhere in the code. -/
theorem relative_f1_zero_division_counterexample :
    GetRelativeMetrics_F1 exC8 (1/5) (1/5) (1/2) =
      Except.error PyError.zeroDivision := by
  decide

/-- C8 (amended).  Whenever the per-image tallies of `_evaluate` sum to a
zero `tp + fp` denominator, `evaluateF1` stops with the generic
`ZeroDivisionError` of the unguarded `round(tp/(tp+fp), 3)`. -/
theorem relative_f1_zero_denominator_generic_fault (thr : ℚ)
    (gtd detd : AList (List EntF1)) (stats : List (ℕ × ℕ × ℕ × ℕ))
    (hstats : tallyFold thr gtd detd = Except.ok stats)
    (hzero : sumNat (stats.map (fun s => s.1)) + sumNat (stats.map (fun s => s.2.1)) = 0) :
    evaluateF1 thr gtd detd = Except.error PyError.zeroDivision := by
  have htp : sumNat (stats.map (fun s => s.1)) = 0 := by omega
  have hfp : sumNat (stats.map (fun s => s.2.1)) = 0 := by omega
  simp only [evaluateF1, hstats, htp, hfp]
  simp [pyDivRound3]

theorem relative_f1_zero_denominator_generic_fault_witness :
    (tallyFold (1/2) (collectF1Boxes exC8 (1/5) (1/5)).gt
        (collectF1Boxes exC8 (1/5) (1/5)).det = Except.ok [(0, 0, 1, 1)] ∧
      sumNat ([((0 : ℕ), (0 : ℕ), (1 : ℕ), (1 : ℕ))].map (fun s => s.1)) +
        sumNat ([((0 : ℕ), (0 : ℕ), (1 : ℕ), (1 : ℕ))].map (fun s => s.2.1)) = 0) ∧
    evaluateF1 (1/2) (collectF1Boxes exC8 (1/5) (1/5)).gt
      (collectF1Boxes exC8 (1/5) (1/5)).det = Except.error PyError.zeroDivision :=
  ⟨⟨by decide, by decide⟩,
    relative_f1_zero_denominator_generic_fault (1/2)
      (collectF1Boxes exC8 (1/5) (1/5)).gt (collectF1Boxes exC8 (1/5) (1/5)).det
      [(0, 0, 1, 1)] (by decide) (by decide)⟩

/-! ### `GetRelativeMetrics_mAP` (lines 592-752) -/

/-- A per-class record of the mAP `_evaluate`
(`class`/`AP`/`total positives`/`total TP`/`total FP`). -/
structure MapClassResult where
  classId : ℕ
  AP : QN
  totalPositives : ℕ
  totalTP : ℕ
  totalFP : ℕ
deriving DecidableEq, Repr

/-- One iteration of the mAP collection loop (lines 692-717): unlike the
F1 loop, the image key is initialized only in the dictionary of the box's
own kind.  Ground truths are stored as `[imageName, classId, 1, box]` and
detections as `[imageName, classId, confidence, box]`. -/
def collectMapStep (cg cd : ℚ) (acc : AList (List GT) × AList (List Det))
    (bb : BB) : AList (List GT) × AList (List Det) :=
  if bb.bbType = BBType.groundTruth then
    let g1 := dictInitKey acc.1 bb.imageName []
    if bb.classId ∈ relClasses ∧ cg ≤ bb.confidence then
      (alistAppendEntry g1 bb.imageName ⟨bb.imageName, bb.classId, bb.box⟩, acc.2)
    else (g1, acc.2)
  else
    let d1 := dictInitKey acc.2 bb.imageName []
    if bb.classId ∈ relClasses ∧ cd ≤ bb.confidence then
      (acc.1, alistAppendEntry d1 bb.imageName
        ⟨bb.imageName, bb.classId, bb.confidence, bb.box⟩)
    else (acc.1, d1)

/-- The whole mAP collection loop. -/
def collectMapBoxes (bbs : List BB) (cg cd : ℚ) :
    AList (List GT) × AList (List Det) :=
  bbs.foldl (collectMapStep cg cd) ([], [])

/-- The flattening loop (lines 725-727): iterate over the images that
have detections and extend both flat lists — `bb_image_gt[imageName]` is
an unguarded direct lookup. -/
def extendLoop (gtd : AList (List GT)) (detd : AList (List Det)) :
    Except PyError (List GT × List Det) :=
  detd.foldlM (fun (acc : List GT × List Det) kv =>
    match dictGet gtd kv.1 with
    | Except.error e => Except.error e
    | Except.ok g => Except.ok (acc.1 ++ g, acc.2 ++ kv.2)) ([], [])

/-- The mAP `_evaluate` (lines 596-672): the per-class algorithm of
`GetPascalVOCMetrics` with all-point interpolation, run over the sorted
class list, keeping only `class`, `AP` and the totals. -/
def mapEvaluate (thr : ℚ) (groundTruths : List GT) (detections : List Det)
    (classes : List ℕ) : Except PyError (List MapClassResult) :=
  (classes.insertionSort (fun a b => a ≤ b)).foldlM
    (fun (acc : List MapClassResult) c =>
      match evalClass thr MethodAveragePrecision.everyPointInterpolation
          groundTruths detections c with
      | Except.error e => Except.error e
      | Except.ok r =>
        Except.ok (acc ++ [⟨c, r.AP, r.totalPositives, r.totalTP, r.totalFP⟩])) []

/-- Source `GetRelativeMetrics_mAP` (lines 592-752): collect the per-image
dictionaries, flatten them over the detected images, evaluate each
whitelisted class, then `assert len(ret) == len(classes)` and average the
per-class APs (`nan` propagating through sum and quotient). -/
def GetRelativeMetrics_mAP (bbs : List BB) (cg cd thr : ℚ) :
    Except PyError (List MapClassResult × QN) :=
  let dicts := collectMapBoxes bbs cg cd
  match extendLoop dicts.1 dicts.2 with
  | Except.error e => Except.error e
  | Except.ok gd =>
    match mapEvaluate thr gd.1 gd.2 relClasses with
    | Except.error e => Except.error e
    | Except.ok ret =>
      let mAP := ret.foldl (fun a r => qnAdd a r.AP) (some 0)
      if ret.length = relClasses.length then
        if (ret.length : ℚ) = 0 then Except.error PyError.zeroDivision
        else Except.ok (ret, qnDiv mAP (some (ret.length : ℚ)))
      else Except.error PyError.assertionFailed

theorem alistHasKey_nil {α : Type} (q : ℕ) :
    alistHasKey ([] : AList α) q = false := by
  simp [alistHasKey, alistLookup]

theorem alistHasKey_cons {α : Type} (p : ℕ × α) (rest : AList α) (q : ℕ) :
    alistHasKey (p :: rest) q = (decide (p.1 = q) || alistHasKey rest q) := by
  simp only [alistHasKey, alistLookup, List.find?]
  cases hpq : decide (p.1 = q)
  · simp [alistHasKey, alistLookup]
  · simp

theorem alistHasKey_append_single {α : Type} (m : AList α) (k : ℕ) (v : α)
    (q : ℕ) : alistHasKey (m ++ [(k, v)]) q =
      (alistHasKey m q || decide (k = q)) := by
  induction m with
  | nil => simp [alistHasKey_cons, alistHasKey_nil]
  | cons p rest ih =>
    rw [List.cons_append, alistHasKey_cons, alistHasKey_cons, ih, Bool.or_assoc]

theorem alistHasKey_dictInitKey {α : Type} (m : AList α) (k : ℕ) (v : α)
    (q : ℕ) : alistHasKey (dictInitKey m k v) q =
      (alistHasKey m q || decide (k = q)) := by
  by_cases h : alistHasKey m k
  · rw [dictInitKey, if_pos h]
    by_cases hk : k = q
    · subst hk
      simp [h]
    · simp [hk]
  · rw [dictInitKey, if_neg h, alistHasKey_append_single]

theorem alistHasKey_appendEntry {α : Type} : ∀ (m : AList (List α)) (k : ℕ)
    (g : α) (q : ℕ), alistHasKey (alistAppendEntry m k g) q =
      (alistHasKey m q || decide (k = q)) := by
  intro m
  induction m with
  | nil =>
    intro k g q
    simp [alistAppendEntry, alistHasKey_cons, alistHasKey_nil]
  | cons p rest ih =>
    intro k g q
    by_cases hp : p.1 = k
    · rw [alistAppendEntry, if_pos hp, alistHasKey_cons, alistHasKey_cons, ← hp]
      cases decide (p.1 = q) <;> cases alistHasKey rest q <;> rfl
    · rw [alistAppendEntry, if_neg hp, alistHasKey_cons, alistHasKey_cons,
        ih k g q, Bool.or_assoc]

theorem collectMap_gt_keys (cg cd : ℚ) : ∀ (bbs : List BB)
    (acc : AList (List GT) × AList (List Det)) (q : ℕ),
    alistHasKey (bbs.foldl (collectMapStep cg cd) acc).1 q = true ↔
      alistHasKey acc.1 q = true ∨
        ∃ bb ∈ bbs, bb.bbType = BBType.groundTruth ∧ bb.imageName = q := by
  intro bbs
  induction bbs with
  | nil => intro acc q; simp
  | cons bb t ih =>
    intro acc q
    rw [List.foldl_cons, ih (collectMapStep cg cd acc bb) q]
    have hstep : alistHasKey (collectMapStep cg cd acc bb).1 q =
        (if bb.bbType = BBType.groundTruth
          then (alistHasKey acc.1 q || decide (bb.imageName = q))
          else alistHasKey acc.1 q) := by
      simp only [collectMapStep]
      cases hb : bb.bbType
      · simp [apply_ite Prod.fst,
          apply_ite (fun (m : AList (List GT)) => alistHasKey m q),
          alistHasKey_appendEntry, alistHasKey_dictInitKey, Bool.or_assoc]
      · simp [apply_ite Prod.fst]
    rw [hstep]
    by_cases hb : bb.bbType = BBType.groundTruth
    · rw [if_pos hb]
      simp only [Bool.or_eq_true, decide_eq_true_eq]
      constructor
      · rintro ((h | h) | ⟨bb', h1, h2, h3⟩)
        · exact Or.inl h
        · exact Or.inr ⟨bb, List.mem_cons_self bb t, hb, h⟩
        · exact Or.inr ⟨bb', List.mem_cons_of_mem bb h1, h2, h3⟩
      · rintro (h | ⟨bb', h1, h2, h3⟩)
        · exact Or.inl (Or.inl h)
        · rcases List.mem_cons.1 h1 with h4 | h4
          · subst h4
            exact Or.inl (Or.inr h3)
          · exact Or.inr ⟨bb', h4, h2, h3⟩
    · rw [if_neg hb]
      constructor
      · rintro (h | ⟨bb', h1, h2, h3⟩)
        · exact Or.inl h
        · exact Or.inr ⟨bb', List.mem_cons_of_mem bb h1, h2, h3⟩
      · rintro (h | ⟨bb', h1, h2, h3⟩)
        · exact Or.inl h
        · rcases List.mem_cons.1 h1 with h4 | h4
          · subst h4
            exact absurd h2 hb
          · exact Or.inr ⟨bb', h4, h2, h3⟩

theorem collectMap_det_keys (cg cd : ℚ) : ∀ (bbs : List BB)
    (acc : AList (List GT) × AList (List Det)) (q : ℕ),
    alistHasKey (bbs.foldl (collectMapStep cg cd) acc).2 q = true ↔
      alistHasKey acc.2 q = true ∨
        ∃ bb ∈ bbs, bb.bbType = BBType.detected ∧ bb.imageName = q := by
  intro bbs
  induction bbs with
  | nil => intro acc q; simp
  | cons bb t ih =>
    intro acc q
    rw [List.foldl_cons, ih (collectMapStep cg cd acc bb) q]
    have hstep : alistHasKey (collectMapStep cg cd acc bb).2 q =
        (if bb.bbType = BBType.detected
          then (alistHasKey acc.2 q || decide (bb.imageName = q))
          else alistHasKey acc.2 q) := by
      simp only [collectMapStep]
      cases hb : bb.bbType
      · simp [apply_ite Prod.snd]
      · simp [apply_ite Prod.snd,
          apply_ite (fun (m : AList (List Det)) => alistHasKey m q),
          alistHasKey_appendEntry, alistHasKey_dictInitKey, Bool.or_assoc]
    rw [hstep]
    by_cases hb : bb.bbType = BBType.detected
    · rw [if_pos hb]
      simp only [Bool.or_eq_true, decide_eq_true_eq]
      constructor
      · rintro ((h | h) | ⟨bb', h1, h2, h3⟩)
        · exact Or.inl h
        · exact Or.inr ⟨bb, List.mem_cons_self bb t, hb, h⟩
        · exact Or.inr ⟨bb', List.mem_cons_of_mem bb h1, h2, h3⟩
      · rintro (h | ⟨bb', h1, h2, h3⟩)
        · exact Or.inl (Or.inl h)
        · rcases List.mem_cons.1 h1 with h4 | h4
          · subst h4
            exact Or.inl (Or.inr h3)
          · exact Or.inr ⟨bb', h4, h2, h3⟩
    · rw [if_neg hb]
      constructor
      · rintro (h | ⟨bb', h1, h2, h3⟩)
        · exact Or.inl h
        · exact Or.inr ⟨bb', List.mem_cons_of_mem bb h1, h2, h3⟩
      · rintro (h | ⟨bb', h1, h2, h3⟩)
        · exact Or.inl h
        · rcases List.mem_cons.1 h1 with h4 | h4
          · subst h4
            exact absurd h2 hb
          · exact Or.inr ⟨bb', h4, h2, h3⟩

theorem alistHasKey_iff_mem {α : Type} (m : AList α) (k : ℕ) :
    alistHasKey m k = true ↔ ∃ p ∈ m, p.1 = k := by
  induction m with
  | nil => simp [alistHasKey_nil]
  | cons p rest ih =>
    rw [alistHasKey_cons]
    simp only [Bool.or_eq_true, decide_eq_true_eq, ih]
    constructor
    · rintro (h | ⟨p', h1, h2⟩)
      · exact ⟨p, List.mem_cons_self p rest, h⟩
      · exact ⟨p', List.mem_cons_of_mem p h1, h2⟩
    · rintro ⟨p', h1, h2⟩
      rcases List.mem_cons.1 h1 with h3 | h3
      · subst h3
        exact Or.inl h2
      · exact Or.inr ⟨p', h3, h2⟩

theorem extend_fold_keyError (gtd : AList (List GT)) :
    ∀ (l : List (ℕ × List Det)) (acc : List GT × List Det),
      (∃ kv ∈ l, alistLookup gtd kv.1 = none) →
      l.foldlM (fun (acc : List GT × List Det) kv =>
        match dictGet gtd kv.1 with
        | Except.error e => Except.error e
        | Except.ok g => Except.ok (acc.1 ++ g, acc.2 ++ kv.2)) acc =
        Except.error PyError.keyError := by
  intro l
  induction l with
  | nil =>
    intro acc h
    exact absurd h (by simp)
  | cons kv t ih =>
    intro acc h
    rw [List.foldlM_cons]
    cases hl : alistLookup gtd kv.1 with
    | none =>
      rw [show dictGet gtd kv.1 = Except.error PyError.keyError by
        rw [dictGet, hl]]
      rfl
    | some g =>
      rw [show dictGet gtd kv.1 = Except.ok g by rw [dictGet, hl]]
      show t.foldlM _ (acc.1 ++ g, acc.2 ++ kv.2) = _
      apply ih
      rcases h with ⟨kv', h1, h2⟩
      rcases List.mem_cons.1 h1 with h3 | h3
      · subst h3
        rw [hl] at h2
        exact absurd h2 (by simp)
      · exact ⟨kv', h3, h2⟩

/-- C10.  If some box of the evaluated detector lies on an image with no
reference (ground-truth type) box of any class, `GetRelativeMetrics_mAP`
fails with the `KeyError` of the unguarded `bb_image_gt[imageName]` at
line 726: the reference dictionary is keyed only by images that have
ground-truth boxes, yet is indexed by every image that has detections. -/
theorem map_missing_reference_keyerror (bbs : List BB) (cg cd thr : ℚ)
    (h : ∃ bb ∈ bbs, bb.bbType = BBType.detected ∧
      ∀ bb' ∈ bbs, bb'.bbType = BBType.groundTruth → bb'.imageName ≠ bb.imageName) :
    GetRelativeMetrics_mAP bbs cg cd thr = Except.error PyError.keyError := by
  obtain ⟨bb, hmem, hdet, hnogt⟩ := h
  have hdkey : alistHasKey (collectMapBoxes bbs cg cd).2 bb.imageName = true :=
    (collectMap_det_keys cg cd bbs ([], []) bb.imageName).2
      (Or.inr ⟨bb, hmem, hdet, rfl⟩)
  have hgkey : ¬ alistHasKey (collectMapBoxes bbs cg cd).1 bb.imageName = true := by
    intro hk
    rcases (collectMap_gt_keys cg cd bbs ([], []) bb.imageName).1 hk with h1 | h1
    · rw [alistHasKey_nil] at h1
      exact absurd h1 (by simp)
    · obtain ⟨bb', h1, h2, h3⟩ := h1
      exact hnogt bb' h1 h2 h3
  have hglook : alistLookup (collectMapBoxes bbs cg cd).1 bb.imageName = none := by
    rcases hlk : alistLookup (collectMapBoxes bbs cg cd).1 bb.imageName with _ | v
    · rfl
    · exact absurd (by rw [alistHasKey, hlk]; rfl) hgkey
  obtain ⟨kv, hkv1, hkv2⟩ := (alistHasKey_iff_mem _ _).1 hdkey
  have hext : extendLoop (collectMapBoxes bbs cg cd).1 (collectMapBoxes bbs cg cd).2 =
      Except.error PyError.keyError := by
    rw [extendLoop]
    apply extend_fold_keyError
    exact ⟨kv, hkv1, by rw [hkv2]; exact hglook⟩
  rw [GetRelativeMetrics_mAP]
  rw [hext]

theorem map_missing_reference_keyerror_witness :
    (∃ bb ∈ ([⟨0, 3, 1, BBType.detected, ⟨0, 0, 10, 10⟩⟩] : List BB),
      bb.bbType = BBType.detected ∧
      ∀ bb' ∈ ([⟨0, 3, 1, BBType.detected, ⟨0, 0, 10, 10⟩⟩] : List BB),
        bb'.bbType = BBType.groundTruth → bb'.imageName ≠ bb.imageName) ∧
    GetRelativeMetrics_mAP [⟨0, 3, 1, BBType.detected, ⟨0, 0, 10, 10⟩⟩]
      (1/5) (1/5) (1/2) = Except.error PyError.keyError :=
  ⟨by decide,
    map_missing_reference_keyerror [⟨0, 3, 1, BBType.detected, ⟨0, 0, 10, 10⟩⟩]
      (1/5) (1/5) (1/2) (by decide)⟩

end Evaluator
